import Mathlib

/-!
Verification model of the bounded-depth, same-site web crawler in
`src/utils.py` (class `SimpleWebsiteScraper` and `CustomCrawler`).

The scraper's URL handling is built on CPython's `urllib.parse`
(`urlparse`, `urlunparse`, `urljoin`), so the first half of this file is a
shallow embedding of those stdlib functions, translated from CPython 3.11.6
(`/usr/local/lib/python3.11/urllib/parse.py`).  Strings are modelled as
`List Char` internally (Python `str.find`, slicing and `in` become
structural list recursions) and converted to `String` at the interfaces.

Modelling boundary (documented deviations, each identity on the inputs used
anywhere in this development):
* `_checknetloc` (NFKC check) is omitted: it is a no-op for every netloc
  consisting of ASCII characters.
* `_check_bracketed_host` (IPv6/IPvFuture address validation) is omitted:
  it only runs for netlocs containing a matched pair of square brackets.
  The mismatched-bracket `ValueError` of `urlsplit` is modelled exactly.
Everything else (WHATWG control-character lstrip, tab/CR/LF removal, scheme
detection, netloc/fragment/query/params splitting, `urlunsplit`'s
reassembly rules, `urljoin`'s dot-segment resolution) follows the CPython
source line by line.
-/

namespace WQA

/-! ### Character classes and list helpers (Python string primitives) -/

/-- Python `_WHATWG_C0_CONTROL_OR_SPACE`: the C0 control characters together
with the space character, i.e. code points 0x00 through 0x20. -/
def isC0OrSpace (c : Char) : Bool := c.val ≤ 32

/-- Python `_UNSAFE_URL_BYTES_TO_REMOVE = ['\t', '\r', '\n']`. -/
def isUnsafeByte (c : Char) : Bool := c = '\t' || c = '\r' || c = '\n'

/-- Membership in Python's `scheme_chars` (ASCII letters, digits, `+`, `-`, `.`).
Lean's `Char.isAlpha`/`Char.isDigit` are ASCII-only, matching the explicit
ASCII alphabet of `scheme_chars`. -/
def schemeChar (c : Char) : Bool := c.isAlpha || c.isDigit || c = '+' || c = '-' || c = '.'

/-- Split a list at the first occurrence of `d` (the occurrence itself is
dropped); `none` if `d` does not occur.  Models Python
`s.split(d, 1)` / `s.find(d)` with a split at the found index. -/
def splitFirst (d : Char) : List Char → Option (List Char × List Char)
  | [] => none
  | c :: cs =>
    if c = d then some ([], cs)
    else
      match splitFirst d cs with
      | none => none
      | some (a, b) => some (c :: a, b)

/-- Split a list at the last occurrence of `d`; `none` if `d` does not occur.
Models Python `s.rfind(d)`. -/
def splitLast (d : Char) (l : List Char) : Option (List Char × List Char) :=
  match splitFirst d l.reverse with
  | none => none
  | some (rb, ra) => some (ra.reverse, rb.reverse)

/-- Python `_splitnetloc(url, 2)` core: scan until the first of `/`, `?`, `#`;
returns the consumed prefix and the remainder (delimiter kept in the
remainder).  Python computes the minimum of the three first-occurrence
indices, which is exactly the first position holding any of the three. -/
def takeUntilDelims : List Char → List Char × List Char
  | [] => ([], [])
  | c :: cs =>
    if c = '/' || c = '?' || c = '#' then ([], c :: cs)
    else
      let r := takeUntilDelims cs
      (c :: r.1, r.2)

/-- Boolean list prefix test (Python `s.startswith(t)` on char lists). -/
def listStartsWith : List Char → List Char → Bool
  | _, [] => true
  | [], _ :: _ => false
  | c :: cs, d :: ds => c = d && listStartsWith cs ds

/-- Python `str.startswith` for `String`s, via the char-list model. -/
def pyStartsWith (s t : String) : Bool := listStartsWith s.data t.data

/-- Python `s.endswith('/')` for a `String`, via the char-list model. -/
def endsWithSlash (s : String) : Bool :=
  decide (s.data.getLast? = some '/')

/-- Python `s.rstrip('/')` on char lists: remove every trailing `/`. -/
def dropTrailingSlashes (l : List Char) : List Char :=
  (l.reverse.dropWhile (fun c => decide (c = '/'))).reverse

/-- Python `s.lstrip('/')` on char lists: remove every leading `/`. -/
def dropLeadingSlashes (l : List Char) : List Char :=
  l.dropWhile (fun c => decide (c = '/'))

/-- Python `s.split(d)` (unbounded split) on char lists; the result is always
nonempty, and splitting the empty list yields `[[]]`, matching
`''.split('/') == ['']`. -/
def splitAll (d : Char) : List Char → List (List Char)
  | [] => [[]]
  | c :: cs =>
    match splitAll d cs with
    | [] => [[]]
    | h :: t => if c = d then [] :: h :: t else (c :: h) :: t

/-- Python `d.join(parts)` on char lists. -/
def joinWith (d : Char) : List (List Char) → List Char
  | [] => []
  | [p] => p
  | p :: ps => p ++ d :: joinWith d ps

/-! ### The urllib.parse data model -/

/-- Result of `urlsplit`: the 5-tuple `SplitResult`. -/
structure UrlSplit where
  scheme : String
  netloc : String
  path : String
  query : String
  fragment : String
deriving DecidableEq, Repr

/-- Result of `urlparse`: the 6-tuple `ParseResult` (path parameters split
out of the last path segment for schemes in `uses_params`). -/
structure UrlParse where
  scheme : String
  netloc : String
  path : String
  params : String
  query : String
  fragment : String
deriving DecidableEq, Repr

/-- Python `uses_params` (urllib.parse). -/
def usesParams : List String :=
  ["", "ftp", "hdl", "prospero", "http", "imap", "https", "shttp", "rtsp",
   "rtspu", "sip", "sips", "mms", "sftp", "tel"]

/-- Python `uses_relative` (urllib.parse). -/
def usesRelative : List String :=
  ["", "ftp", "http", "gopher", "nntp", "imap", "wais", "file", "https",
   "shttp", "mms", "prospero", "rtsp", "rtspu", "sftp", "svn", "svn+ssh",
   "ws", "wss"]

/-- Python `uses_netloc` (urllib.parse). -/
def usesNetloc : List String :=
  ["", "ftp", "http", "gopher", "nntp", "telnet", "imap", "wais", "file",
   "mms", "https", "shttp", "snews", "prospero", "rtsp", "rtspu", "rsync",
   "svn", "svn+ssh", "sftp", "nfs", "git", "git+ssh", "ws", "wss"]

/-! ### urlsplit / urlparse -/

/-- Scheme detection step of `urlsplit`:
`i = url.find(':'); if i > 0 and url[0].isascii() and url[0].isalpha()` and
every character before the colon is in `scheme_chars`, the scheme is the
lower-cased prefix and the remainder follows the colon. -/
def detectScheme (l : List Char) : Option (List Char × List Char) :=
  match splitFirst ':' l with
  | none => none
  | some ([], _) => none
  | some (c :: cs, post) =>
    if c.isAlpha && (c :: cs).all schemeChar then
      some ((c :: cs).map Char.toLower, post)
    else
      none

/-- Netloc step of `urlsplit`: if the remainder starts with `//`, split off
the netloc (up to the first `/`, `?` or `#`) and raise
`ValueError("Invalid IPv6 URL")` when it contains `[` without `]` or
vice versa. -/
def splitNetloc (l : List Char) : Except String (List Char × List Char) :=
  match l with
  | '/' :: '/' :: rest =>
    let r := takeUntilDelims rest
    if ('[' ∈ r.1 && ']' ∉ r.1) || (']' ∈ r.1 && '[' ∉ r.1) then
      Except.error ("Invalid IPv6 URL")
    else
      Except.ok (r.1, r.2)
  | _ => Except.ok ([], l)

/-- Tail of `urlsplit` after scheme handling: netloc extraction (with the
IPv6 bracket check), then the fragment split, then the query split. -/
def urlsplitRest (sc : String) (l : List Char) : Except String UrlSplit :=
  match splitNetloc l with
  | Except.error e => Except.error e
  | Except.ok (nl, l1) =>
    let fr := match splitFirst '#' l1 with
      | none => (l1, ([] : List Char))
      | some (a, b) => (a, b)
    let qu := match splitFirst '?' fr.1 with
      | none => (fr.1, ([] : List Char))
      | some (a, b) => (a, b)
    Except.ok ⟨sc, String.mk nl, String.mk qu.1, String.mk qu.2, String.mk fr.2⟩

/-- Embedding of `urllib.parse.urlsplit(url, scheme=dflt)` (CPython 3.11.6),
with `allow_fragments=True` as in all call sites of `src/utils.py`.
The NFKC netloc check and the bracketed-host validation are omitted (see the
module docstring); the mismatched-bracket error is modelled exactly. -/
def urlsplitE (dflt : String) (url : String) : Except String UrlSplit :=
  let l0 := (url.data.dropWhile isC0OrSpace).filter (fun c => !isUnsafeByte c)
  match detectScheme l0 with
  | some (s, rest) => urlsplitRest (String.mk s) rest
  | none => urlsplitRest dflt l0

/-- Python `_splitparams(url)`: split path parameters off the last path
segment.  Only ever invoked when `';' in url`; the `else` branch mirrors
Python's negative-index slicing (`url[:-1], url[0:]`) for the unreachable
no-semicolon case. -/
def splitParams (l : List Char) : List Char × List Char :=
  match splitLast '/' l with
  | some (a, b) =>
    match splitFirst ';' b with
    | none => (l, [])
    | some (p, q) => (a ++ '/' :: p, q)
  | none =>
    match splitFirst ';' l with
    | none => (l.dropLast, l)
    | some (p, q) => (p, q)

/-- Embedding of `urllib.parse.urlparse(url, scheme=dflt)` (CPython 3.11.6). -/
def urlparseE (dflt : String) (url : String) : Except String UrlParse :=
  match urlsplitE dflt url with
  | Except.error e => Except.error e
  | Except.ok s =>
    if usesParams.contains s.scheme && ';' ∈ s.path.data then
      let pp := splitParams s.path.data
      Except.ok ⟨s.scheme, s.netloc, String.mk pp.1, String.mk pp.2, s.query, s.fragment⟩
    else
      Except.ok ⟨s.scheme, s.netloc, s.path, "", s.query, s.fragment⟩

/-! ### urlunsplit / urlunparse -/

/-- Embedding of `urllib.parse.urlunsplit` (CPython 3.11.6):
reassemble `scheme://netloc/path?query#fragment`, re-adding `//` when a
netloc is present or the scheme customarily uses one. -/
def urlunsplitL (scheme netloc url query fragment : List Char) : List Char :=
  let u1 :=
    if decide (netloc ≠ []) ||
        (decide (scheme ≠ []) && (usesNetloc.map String.data).contains scheme &&
          !listStartsWith url ['/', '/']) then
      let u0 := if decide (url ≠ []) && !listStartsWith url ['/'] then '/' :: url else url
      '/' :: '/' :: netloc ++ u0
    else url
  let u2 := if scheme ≠ [] then scheme ++ ':' :: u1 else u1
  let u3 := if query ≠ [] then u2 ++ '?' :: query else u2
  if fragment ≠ [] then u3 ++ '#' :: fragment else u3

/-- The path-plus-parameters region handed from `urlunparse` to
`urlunsplit`: `if params: url = "%s;%s" % (url, params)`. -/
def combinedL (p : UrlParse) : List Char :=
  if p.params ≠ "" then p.path.data ++ ';' :: p.params.data else p.path.data

/-- Embedding of `urllib.parse.urlunparse` (CPython 3.11.6): re-attach the
path parameters with `;`, then `urlunsplit`. -/
def urlunparse (p : UrlParse) : String :=
  String.mk (urlunsplitL p.scheme.data p.netloc.data (combinedL p) p.query.data p.fragment.data)

/-! ### urljoin -/

/-- Dot-segment resolution loop of `urljoin`: `..` pops (ignoring pops from
an empty list), `.` is skipped, anything else is appended. -/
def resolveSegs (acc : List (List Char)) : List (List Char) → List (List Char)
  | [] => acc
  | s :: rest =>
    if s = ['.', '.'] then resolveSegs acc.dropLast rest
    else if s = ['.'] then resolveSegs acc rest
    else resolveSegs (acc ++ [s]) rest

/-- Python `segments[1:-1] = filter(None, segments[1:-1])`: drop empty
segments strictly between the first and the last. -/
def filterMiddle (l : List (List Char)) : List (List Char) :=
  match l with
  | [] => []
  | [a] => [a]
  | a :: rest =>
    a :: (rest.dropLast.filter (fun s => s ≠ [])) ++ [rest.getLast?.getD []]

/-- Embedding of `urllib.parse.urljoin(base, url)` (CPython 3.11.6). -/
def urljoinE (base url : String) : Except String String :=
  if base = "" then Except.ok url
  else if url = "" then Except.ok base
  else
    match urlparseE "" base with
    | Except.error e => Except.error e
    | Except.ok b =>
      match urlparseE b.scheme url with
      | Except.error e => Except.error e
      | Except.ok u =>
        if u.scheme ≠ b.scheme || !usesRelative.contains u.scheme then
          Except.ok url
        else
          let netloc2 :=
            if usesNetloc.contains u.scheme then
              (if u.netloc ≠ "" then u.netloc else b.netloc)
            else u.netloc
          if usesNetloc.contains u.scheme && u.netloc ≠ "" then
            Except.ok (urlunparse u)
          else if u.path = "" && u.params = "" then
            Except.ok (urlunparse ⟨u.scheme, netloc2, b.path, b.params,
              (if u.query = "" then b.query else u.query), u.fragment⟩)
          else
            let baseParts0 := splitAll '/' b.path.data
            let baseParts :=
              if baseParts0.getLast?.getD [] ≠ [] then baseParts0.dropLast else baseParts0
            let segments :=
              if listStartsWith u.path.data ['/'] then splitAll '/' u.path.data
              else filterMiddle (baseParts ++ splitAll '/' u.path.data)
            let resolved0 := resolveSegs [] segments
            let resolved :=
              if segments.getLast?.getD [] = ['.'] || segments.getLast?.getD [] = ['.', '.'] then
                resolved0 ++ [[]]
              else resolved0
            let joined := joinWith '/' resolved
            Except.ok (urlunparse ⟨u.scheme, netloc2,
              String.mk (if joined = [] then ['/'] else joined),
              u.params, u.query, u.fragment⟩)

/-! ### SimpleWebsiteScraper URL helpers (src/utils.py)

The scraper instance holds `self.base_url` (set by `scrape` to the
normalized start URL); the embeddings take it as an explicit first
argument.  Each Python `try/except` around `urlparse` calls becomes
`Except` propagation; `is_valid_internal_link` catches every exception and
returns `False`. -/

/-- Embedding of `SimpleWebsiteScraper.is_valid_internal_link`
(src/utils.py lines 55-75): a link is internal when it is nonempty, not a
pure fragment, has the same netloc as `base_url`, and its path is neither
empty nor `/` and starts with the base path.  Any parse error yields
`false` (catch-and-false). -/
def is_valid_internal_link (base_url link : String) : Bool :=
  if link = "" then false
  else if pyStartsWith link "#" then false
  else
    match urlparseE "" base_url, urlparseE "" link with
    | Except.ok pb, Except.ok pl =>
      decide (pb.netloc = pl.netloc) && !(decide (pl.path = "") || decide (pl.path = "/")) &&
        pyStartsWith pl.path pb.path
    | _, _ => false

/-- Component transformation of `SimpleWebsiteScraper.normalize_url`
(src/utils.py lines 88-91): `parsed._replace(fragment='')`, then, if the
path ends with a slash and is longer than one character,
`parsed._replace(path=parsed.path.rstrip('/'))`. -/
def normParts (p0 : UrlParse) : UrlParse :=
  let p1 : UrlParse := { p0 with fragment := "" }
  if endsWithSlash p1.path && decide (1 < p1.path.length) then
    { p1 with path := String.mk (dropTrailingSlashes p1.path.data) }
  else p1

/-- Embedding of `SimpleWebsiteScraper.normalize_url`
(src/utils.py lines 77-95): parse, apply `normParts`, reassemble with
`urlunparse`.  A `urlparse` failure is re-raised as
`ValueError("Invalid URL format: ...")`. -/
def normalize_url (url : String) : Except String String :=
  match urlparseE "" url with
  | Except.error _ => Except.error ("Invalid URL format: " ++ url)
  | Except.ok p0 => Except.ok (urlunparse (normParts p0))

/-- Embedding of `SimpleWebsiteScraper.join_url` (src/utils.py lines
97-120): `urljoin(base, url)`, then if the joined path does not start with
`self.base_url`'s path, rewrite it to
`base_path.rstrip('/') + '/' + joined_path.lstrip('/')`.  Any error becomes
`ValueError("Invalid URL format: ...")`. -/
def join_url (base_url base url : String) : Except String String :=
  let err := "Invalid URL format: base=" ++ base ++ ", url=" ++ url
  match urljoinE base url with
  | Except.error _ => Except.error err
  | Except.ok joined =>
    match urlparseE "" base_url, urlparseE "" joined with
    | Except.ok pb, Except.ok pj =>
      if !pyStartsWith pj.path pb.path then
        let newPath := dropTrailingSlashes pb.path.data ++ '/' ::
          dropLeadingSlashes pj.path.data
        Except.ok (urlunparse { pj with path := String.mk newPath })
      else
        Except.ok (urlunparse pj)
    | _, _ => Except.error err

/-! ### The crawl loop (SimpleWebsiteScraper.scrape, src/utils.py 122-177)

The fetcher (`self.crawler.arun`) is the external collaborator: for each
URL it either raises, returns a failure result, or returns a success
result carrying the list of internal links.  A link entry is either a dict
with an `href` (modelled by its string) or malformed (`link['href']`
raises, which escapes the per-link `except ValueError` and aborts the rest
of that page's link loop via the outer `except Exception: continue`).

The state carries, besides the queue / visited set / result dict of the
Python code, two observer fields used only by the theorems: `fetchLog`
records every fetch performed (url, depth, success flag, in order) and
`enqLog` records every entry ever placed on the queue. -/

/-- One internal-link entry of a successful fetch result. -/
inductive LinkEntry where
  | href (s : String)
  | malformed
deriving DecidableEq, Repr

/-- Behaviour of the external fetcher on one URL. -/
inductive FetchBehavior where
  | raises
  | failure
  | success (links : List LinkEntry)
deriving DecidableEq, Repr

/-- The external fetcher: one behaviour per URL (a single crawl fetches
each URL at most once, so a function models one crawl's fetch outcomes). -/
def Fetcher : Type := String → FetchBehavior

/-- A fetch event recorded by the observer log: URL, depth at fetch time,
and whether `result.success` was true. -/
structure FetchEvent where
  url : String
  depth : Int
  ok : Bool
deriving DecidableEq, Repr

/-- State of the crawl loop.  `visited` is the Python set in insertion
order (membership is all the code uses), `results` the insertion-ordered
dict mapping each successfully fetched URL to its links. -/
structure CrawlState where
  queue : List (String × Int)
  visited : List String
  results : List (String × List LinkEntry)
  fetchLog : List FetchEvent
  enqLog : List (String × Int)
deriving DecidableEq, Repr

/-- The for-loop over `result.links['internal']` (src/utils.py 160-169):
join, normalize, validate and filter against the current visited set; a
`ValueError` skips the single link, a malformed entry aborts the remaining
links (exception caught by the outer handler).  The visited set does not
change during the loop, and appends go to the queue in link order. -/
def processLinks (base_url current : String) (visited : List String)
    (depth1 : Int) : List LinkEntry → List (String × Int)
  | [] => []
  | LinkEntry.malformed :: _ => []
  | LinkEntry.href h :: rest =>
    match (join_url base_url current h).bind normalize_url with
    | Except.error _ => processLinks base_url current visited depth1 rest
    | Except.ok nu =>
      if is_valid_internal_link base_url nu && nu ∉ visited then
        (nu, depth1) :: processLinks base_url current visited depth1 rest
      else
        processLinks base_url current visited depth1 rest

/-- One iteration of the `while queue:` loop (src/utils.py 144-175):
dequeue; skip if visited or too deep; mark visited before fetching; on
success record the result and (below `max_depth`) enqueue the processed
links; on failure or a raised exception just continue. -/
def crawlStep (fetch : Fetcher) (base_url : String) (maxDepth : Int)
    (s : CrawlState) : CrawlState :=
  match s.queue with
  | [] => s
  | (url, depth) :: rest =>
    if url ∈ s.visited ∨ maxDepth < depth then
      { s with queue := rest }
    else
      let visited1 := s.visited ++ [url]
      match fetch url with
      | FetchBehavior.raises =>
        { s with queue := rest, visited := visited1,
                 fetchLog := s.fetchLog ++ [⟨url, depth, false⟩] }
      | FetchBehavior.failure =>
        { s with queue := rest, visited := visited1,
                 fetchLog := s.fetchLog ++ [⟨url, depth, false⟩] }
      | FetchBehavior.success links =>
        let newT := if depth < maxDepth then
            processLinks base_url url visited1 (depth + 1) links
          else []
        { queue := rest ++ newT,
          visited := visited1,
          results := s.results ++ [(url, links)],
          fetchLog := s.fetchLog ++ [⟨url, depth, true⟩],
          enqLog := s.enqLog ++ newT }

/-- Run the loop for `fuel` iterations (the termination theorem computes a
fuel after which the queue is empty and the state is fixed). -/
def crawlRun (fetch : Fetcher) (base_url : String) (maxDepth : Int) :
    Nat → CrawlState → CrawlState
  | 0, s => s
  | n + 1, s => crawlRun fetch base_url maxDepth n (crawlStep fetch base_url maxDepth s)

/-- Initial state: the frontier seeded with `(base_url, 0)`. -/
def initState (base_url : String) : CrawlState :=
  ⟨[(base_url, 0)], [], [], [], [(base_url, 0)]⟩

/-- Embedding of `SimpleWebsiteScraper.scrape` (src/utils.py 122-177):
normalize the start URL (a `ValueError` propagates before the loop), then
run the traversal.  The Python method returns `results`; the model returns
the whole final state so the theorems can speak about the visited set and
the logs, with `results` as the externally visible dictionary. -/
def scrape (fetch : Fetcher) (start_url : String) (maxDepth : Int)
    (fuel : Nat) : Except String CrawlState :=
  match normalize_url start_url with
  | Except.error e => Except.error e
  | Except.ok base => Except.ok (crawlRun fetch base maxDepth fuel (initState base))

/-- Embedding of `CustomCrawler.scrapper_tool` (src/utils.py 184-226) up to
the crawl: `if depth < 0: raise ValueError("Depth must be non-negative")`
is the first statement, before the crawler is constructed and before any
fetch; afterwards it delegates to `scrape`.  (The report writing that
follows a successful crawl is outside the claims considered here.) -/
def scrapper_tool (fetch : Fetcher) (start_url : String) (depth : Int)
    (fuel : Nat) : Except String CrawlState :=
  if depth < 0 then Except.error "Depth must be non-negative"
  else scrape fetch start_url depth fuel

/-! ### Auxiliary definitions for the claims -/

/-- Value of a successful computation, or the default on error. -/
def okOr (d : String) (e : Except String String) : String :=
  match e with
  | Except.ok v => v
  | Except.error _ => d

/-- Specification-side reading of the validity conditions of
`isValidInternalLink` in section 4.1 of the spec: the link is nonempty, not
fragment-only, both the root and the link parse, the hosts agree, and the
link's path is neither empty nor `/` and extends the root's path prefix.
This is written from the spec's words, to be compared with the code-derived
`is_valid_internal_link`. -/
def specValidInternalLink (root link : String) : Prop :=
  link ≠ "" ∧ pyStartsWith link "#" = false ∧
    ∃ pr pl, urlparseE "" root = Except.ok pr ∧ urlparseE "" link = Except.ok pl ∧
      pl.netloc = pr.netloc ∧ pl.path ≠ "" ∧ pl.path ≠ "/" ∧
      pyStartsWith pl.path pr.path = true

/-- Links carried by a fetch behaviour (empty for failures). -/
def linksOf : FetchBehavior → List LinkEntry
  | FetchBehavior.success links => links
  | _ => []

/-- All canonical URLs a page's link list can contribute to the frontier,
ignoring the visited filter: the join-normalize-validate pipeline of
`processLinks` without the `not in visited` test. -/
def linkCandidates (base current : String) : List LinkEntry → List String
  | [] => []
  | LinkEntry.malformed :: _ => []
  | LinkEntry.href h :: rest =>
    match (join_url base current h).bind normalize_url with
    | Except.error _ => linkCandidates base current rest
    | Except.ok nu =>
      if is_valid_internal_link base nu then nu :: linkCandidates base current rest
      else linkCandidates base current rest

/-- Upper bound on the number of links any URL of the universe `U` can
deliver in one fetch. -/
def maxLinkCount (fetch : Fetcher) (U : List String) : Nat :=
  (U.map (fun u => (linksOf (fetch u)).length)).foldr Nat.max 0

/-- Termination measure of the crawl loop relative to a finite URL
universe `U`: unvisited members of `U` weighted by the largest possible
frontier growth, plus the frontier length. -/
def crawlMeasure (fetch : Fetcher) (U : List String) (s : CrawlState) : Nat :=
  (U.filter (fun u => decide (u ∉ s.visited))).length * (maxLinkCount fetch U + 1)
    + s.queue.length

/-- Every URL on the frontier belongs to the universe `U`. -/
def QueueInU (U : List String) (s : CrawlState) : Prop :=
  ∀ p ∈ s.queue, p.1 ∈ U

/-- Loop invariant of the crawl (established at `initState`, preserved by
`crawlStep`): the visited set lists exactly the fetched URLs in order,
no URL is fetched twice, no fetch exceeds `maxDepth`, and the result
dictionary's keys are exactly the successfully fetched URLs in order. -/
structure CrawlInv (maxDepth : Int) (s : CrawlState) : Prop where
  vis_eq : s.visited = s.fetchLog.map FetchEvent.url
  vis_nodup : s.visited.Nodup
  depths_le : ∀ e ∈ s.fetchLog, e.depth ≤ maxDepth
  res_eq : s.results.map Prod.fst = (s.fetchLog.filter (fun e => e.ok)).map FetchEvent.url

/-- Link graph of the breadth-first-ordering scenario (spec section 8): the
start page links to pages a and b, each of which links to the common
page c. -/
def fetcherBFS : Fetcher := fun u =>
  if u = "http://a.com/d" then
    FetchBehavior.success [LinkEntry.href "http://a.com/d/a", LinkEntry.href "http://a.com/d/b"]
  else if u = "http://a.com/d/a" then
    FetchBehavior.success [LinkEntry.href "http://a.com/d/c"]
  else if u = "http://a.com/d/b" then
    FetchBehavior.success [LinkEntry.href "http://a.com/d/c"]
  else if u = "http://a.com/d/c" then
    FetchBehavior.success []
  else
    FetchBehavior.failure

/-- Final state of the breadth-first scenario crawl (maxDepth 2). -/
def bfsRun : CrawlState :=
  match scrape fetcherBFS "http://a.com/d" 2 10 with
  | Except.ok s => s
  | Except.error _ => initState ""

/-- Fetcher that always fails: used to instantiate universally quantified
theorems at a concrete crawl. -/
def fetchAllFail : Fetcher := fun _ => FetchBehavior.failure

/-- Fetcher that succeeds with no links on every URL. -/
def fetchNoLinks : Fetcher := fun _ => FetchBehavior.success []

/-- Final state of a one-page crawl whose only fetch fails. -/
def allFailRun : CrawlState :=
  match scrape fetchAllFail "http://a.com/x" 0 2 with
  | Except.ok s => s
  | Except.error _ => initState ""

/-- Mixed-outcome link graph: the start page succeeds and links to pages a
(whose fetch raises), b (whose fetch returns a failure result) and c
(whose fetch succeeds). -/
def fetcherMixed : Fetcher := fun u =>
  if u = "http://m.org/r" then
    FetchBehavior.success [LinkEntry.href "http://m.org/r/a", LinkEntry.href "http://m.org/r/b",
      LinkEntry.href "http://m.org/r/c"]
  else if u = "http://m.org/r/a" then FetchBehavior.raises
  else if u = "http://m.org/r/b" then FetchBehavior.failure
  else if u = "http://m.org/r/c" then FetchBehavior.success []
  else FetchBehavior.raises

/-- Link graph whose start page's second link entry is malformed
(accessing `link['href']` raises): link processing aborts there, but the
page itself must stay recorded and the crawl must continue. -/
def fetcherMalformed : Fetcher := fun u =>
  if u = "http://q.net/w" then
    FetchBehavior.success [LinkEntry.href "http://q.net/w/a", LinkEntry.malformed,
      LinkEntry.href "http://q.net/w/b"]
  else if u = "http://q.net/w/a" then FetchBehavior.success []
  else FetchBehavior.raises

/-! ### Reparse characterization for the idempotence analysis

The fixed-point theorem for `normalize_url` works by computing the parse
of an unparsed 6-tuple.  The following definitions name the intermediate
objects; the `NormInv` predicate collects the facts that hold of every
tuple produced by `urlparseE` followed by `normParts` (established in
`urlparse_normParts_inv`) and that make the reparse computation land on
the same string. -/

/-- The path either has no colon, or the prefix before its first colon
could never be mistaken for a scheme (it is empty, starts with a
non-letter, or contains a character outside the scheme alphabet). -/
def schemeSafePath (l : List Char) : Prop :=
  match splitFirst ':' l with
  | none => True
  | some (pre, _) =>
    pre = [] ∨ (∀ ch, pre.head? = some ch → ch.isAlpha = false) ∨
      ∃ ch ∈ pre, schemeChar ch = false

/-- Invariant of a parsed-and-normalized 6-tuple.  All fields are facts
produced by `urlparseE` (cleanliness of each component, scheme shape,
netloc/path interplay) together with the effect of `normParts` (empty
fragment, non-strippable path) and the two side conditions of the amended
idempotence claim (no semicolon in the path; no `//`-prefixed path with an
empty authority). -/
structure NormInv (p : UrlParse) : Prop where
  scheme_ok : p.scheme.data = [] ∨
    ∃ ch cs, p.scheme.data = ch :: cs ∧ ch.isAlpha = true ∧
      (ch :: cs).all schemeChar = true ∧ (ch :: cs).map Char.toLower = ch :: cs
  netloc_clean : ∀ ch ∈ p.netloc.data, ch ≠ '/' ∧ ch ≠ '?' ∧ ch ≠ '#' ∧ isUnsafeByte ch = false
  netloc_brackets : ¬ (('[' ∈ p.netloc.data ∧ ']' ∉ p.netloc.data) ∨
      (']' ∈ p.netloc.data ∧ '[' ∉ p.netloc.data))
  path_clean : ∀ ch ∈ p.path.data, ch ≠ '?' ∧ ch ≠ '#' ∧ isUnsafeByte ch = false
  params_clean : ∀ ch ∈ p.params.data, ch ≠ '/' ∧ ch ≠ '?' ∧ ch ≠ '#' ∧ isUnsafeByte ch = false
  query_clean : ∀ ch ∈ p.query.data, ch ≠ '#' ∧ isUnsafeByte ch = false
  frag_empty : p.fragment = ""
  params_scheme : p.params.data ≠ [] → usesParams.contains p.scheme = true
  netloc_path : p.netloc.data ≠ [] → (p.path.data = [] ∨ listStartsWith p.path.data ['/'] = true)
  no_scheme_safe : p.scheme.data = [] → p.netloc.data = [] →
    (schemeSafePath p.path.data ∧
      ∀ ch, p.path.data.head? = some ch → isC0OrSpace ch = false)
  path_nostrip : ¬ (p.path.data.getLast? = some '/' ∧ 1 < p.path.data.length)
  path_nosemi : ';' ∉ p.path.data
  path_noslashslash : p.netloc.data = [] → listStartsWith p.path.data ['/', '/'] = false

/-- The authority condition of `urlunsplit`, as the boolean the embedding
evaluates: re-emit `//` when a netloc is present, or when the scheme uses
one and the path region does not already begin with `//`. -/
def unsplitB (p : UrlParse) : Bool :=
  decide (p.netloc.data ≠ []) ||
    (decide (p.scheme.data ≠ []) && (usesNetloc.map String.data).contains p.scheme.data &&
      !listStartsWith (combinedL p) ['/', '/'])

/-- The path region as it comes back out of a reparse of `urlunparse p`:
the combined path-params region, with the `/` that `urlunsplit` inserts
when an authority is emitted and the region does not start with `/`. -/
def regionAfterNetloc (p : UrlParse) : List Char :=
  if unsplitB p = true ∧ combinedL p ≠ [] ∧ listStartsWith (combinedL p) ['/'] = false then
    '/' :: combinedL p
  else combinedL p

/-- The path/params split the reparse performs on the region. -/
def reparsedPP (p : UrlParse) : List Char × List Char :=
  if usesParams.contains p.scheme && ';' ∈ regionAfterNetloc p then
    splitParams (regionAfterNetloc p)
  else (regionAfterNetloc p, [])

/-- The 6-tuple produced by reparsing `urlunparse p`, for `p` satisfying
`NormInv`. -/
def reparsed (p : UrlParse) : UrlParse :=
  ⟨p.scheme, p.netloc, String.mk (reparsedPP p).1, String.mk (reparsedPP p).2, p.query, ""⟩

/-- The query part `urlunsplit` appends: `?`-prefixed when nonempty. -/
def qpartOf (Q : List Char) : List Char :=
  if Q ≠ [] then '?' :: Q else []

/-! ## Theorems

One theorem per claim of the specification audit, preceded by the helper
lemmas they rely on. -/

/-- Dropping the trailing slashes of a character list removes a (possibly
empty) maximal run of slashes: the result is a prefix whose last character
is not a slash. -/
theorem dropTrailingSlashes_decomp (l : List Char) :
    ∃ k, l = dropTrailingSlashes l ++ List.replicate k '/' ∧
      (dropTrailingSlashes l).getLast? ≠ some '/' := by
  have ht : l.reverse.takeWhile (fun c => decide (c = '/')) =
      List.replicate (l.reverse.takeWhile (fun c => decide (c = '/'))).length '/' :=
    List.eq_replicate_of_mem (fun c hc => by simpa using List.mem_takeWhile_imp hc)
  refine ⟨(l.reverse.takeWhile (fun c => decide (c = '/'))).length, ?_, ?_⟩
  · conv_lhs => rw [← l.reverse_reverse,
      ← List.takeWhile_append_dropWhile (p := fun c => decide (c = '/')) (l := l.reverse)]
    rw [List.reverse_append]
    unfold dropTrailingSlashes
    rw [ht, List.reverse_replicate, List.length_replicate]
  · unfold dropTrailingSlashes
    rw [List.getLast?_reverse]
    rcases hd : l.reverse.dropWhile (fun c => decide (c = '/')) with _ | ⟨c, cs⟩
    · simp
    · have := List.head?_dropWhile_not (p := fun c => decide (c = '/')) (l := l.reverse)
      rw [hd] at this
      simp only [List.head?_cons, Option.map_some] at this ⊢
      intro hcc
      simp only [Option.some_inj] at hcc
      simp [hcc] at this

/-- The string-level reading: if a string ends with a slash, the stripped
run is nonempty. -/
theorem dropTrailingSlashes_pos (l : List Char) (k : Nat)
    (hdec : l = dropTrailingSlashes l ++ List.replicate k '/')
    (hlast : (dropTrailingSlashes l).getLast? ≠ some '/')
    (hend : l.getLast? = some '/') : 1 ≤ k := by
  rcases Nat.eq_zero_or_pos k with hk | hk
  · subst hk
    simp only [List.replicate_zero, List.append_nil] at hdec
    rw [hdec] at hend
    exact absurd hend hlast
  · exact hk

/-- C5 counterexample input: the code strips all trailing slashes of a
non-root path, not exactly one, so the claimed output with a single slash
removed is not what `normalize_url` returns. -/
theorem C5_counterexample :
    okOr "" (normalize_url "https://a.com/x//") = "https://a.com/x" ∧
      okOr "" (normalize_url "https://a.com/x//") ≠ "https://a.com/x/" := by
  decide

/-- C5 (amended): for every parseable URL string, normalize_url succeeds
and returns the reassembly of the parse with the fragment removed and with
ALL trailing slashes stripped from a non-root path (a path longer than one
character); any other path, in particular the root path `/`, is left
untouched. -/
theorem C5_normalize_strips_fragment_and_trailing_slashes (u : String) (p : UrlParse)
    (h : urlparseE "" u = Except.ok p) :
    ∃ π : String,
      normalize_url u = Except.ok (urlunparse ⟨p.scheme, p.netloc, π, p.params, p.query, ""⟩) ∧
      ((endsWithSlash p.path = true ∧ 1 < p.path.length) →
        ∃ k, 1 ≤ k ∧ p.path.data = π.data ++ List.replicate k '/' ∧ endsWithSlash π = false) ∧
      (¬(endsWithSlash p.path = true ∧ 1 < p.path.length) → π = p.path) := by
  have hred : normalize_url u = Except.ok (urlunparse (
      if (endsWithSlash p.path && decide (1 < p.path.length)) = true then
        ⟨p.scheme, p.netloc, String.mk (dropTrailingSlashes p.path.data), p.params, p.query, ""⟩
      else ⟨p.scheme, p.netloc, p.path, p.params, p.query, ""⟩)) := by
    unfold normalize_url
    rw [h]
    rfl
  by_cases hc : endsWithSlash p.path = true ∧ 1 < p.path.length
  · have hb : (endsWithSlash p.path && decide (1 < p.path.length)) = true := by
      rw [hc.1, decide_eq_true hc.2]
      rfl
    rw [if_pos hb] at hred
    refine ⟨String.mk (dropTrailingSlashes p.path.data), hred, ?_, fun hcon => absurd hc hcon⟩
    intro _
    obtain ⟨k, hdec, hlast⟩ := dropTrailingSlashes_decomp p.path.data
    refine ⟨k, ?_, hdec, ?_⟩
    · apply dropTrailingSlashes_pos p.path.data k hdec hlast
      have := hc.1
      unfold endsWithSlash at this
      exact of_decide_eq_true this
    · unfold endsWithSlash
      exact decide_eq_false hlast
  · have hb : (endsWithSlash p.path && decide (1 < p.path.length)) = false := by
      rcases Decidable.em (endsWithSlash p.path = true) with he | he
      · rcases Decidable.em (1 < p.path.length) with hl | hl
        · exact absurd ⟨he, hl⟩ hc
        · rw [decide_eq_false hl, Bool.and_false]
      · rw [Bool.of_not_eq_true he, Bool.false_and]
    rw [if_neg (by rw [hb]; exact Bool.false_ne_true)] at hred
    exact ⟨p.path, hred, fun hcc => absurd hcc hc, fun _ => rfl⟩

/-- C5 witness at the concrete input with two trailing slashes. -/
theorem C5_witness :
    ∃ π : String,
      normalize_url "https://a.com/x//" =
        Except.ok (urlunparse ⟨"https", "a.com", π, "", "", ""⟩) ∧
      ((endsWithSlash "/x//" = true ∧ 1 < ("/x//" : String).length) →
        ∃ k, 1 ≤ k ∧ ("/x//" : String).data = π.data ++ List.replicate k '/' ∧
          endsWithSlash π = false) ∧
      (¬(endsWithSlash "/x//" = true ∧ 1 < ("/x//" : String).length) → π = "/x//") :=
  C5_normalize_strips_fragment_and_trailing_slashes "https://a.com/x//"
    ⟨"https", "a.com", "/x//", "", "", ""⟩ rfl

/-- C6: the boolean internal-link validator agrees exactly with the
specification's enumeration: it returns true precisely when the link is
nonempty, not fragment-only, both URLs parse, the hosts agree, and the
link's path is nonempty, not the bare root, and extends the root's path
prefix; in every other case, including parse failures, it returns false
without raising. -/
theorem C6_is_valid_internal_link_spec (root link : String) :
    is_valid_internal_link root link = true ↔ specValidInternalLink root link := by
  unfold is_valid_internal_link specValidInternalLink
  by_cases h0 : link = ""
  · rw [if_pos h0]
    simp [h0]
  · rw [if_neg h0]
    by_cases h1 : pyStartsWith link "#" = true
    · rw [if_pos h1]
      simp [h1]
    · rw [if_neg h1]
      have h1f : pyStartsWith link "#" = false := by
        cases hpy : pyStartsWith link "#"
        · rfl
        · exact absurd hpy h1
      rcases hb : urlparseE "" root with eb | pb <;> rcases hl : urlparseE "" link with el | pl
      · simp [hb]
      · simp [hb]
      · simp [hl]
      · simp only [Bool.and_eq_true, decide_eq_true_eq, Bool.not_eq_true',
          Bool.or_eq_false_iff, decide_eq_false_iff_not]
        constructor
        · rintro ⟨⟨hnet, hp1, hp2⟩, hpre⟩
          exact ⟨h0, h1f, pb, pl, rfl, rfl, hnet.symm ▸ rfl, hp1, hp2, hpre⟩
        · rintro ⟨-, -, pr', pl', hb', hl', hnet, hp1, hp2, hpre⟩
          cases Except.ok.inj hb'
          cases Except.ok.inj hl'
          exact ⟨⟨hnet.symm, hp1, hp2⟩, hpre⟩

/-- C4 counterexample: in the two-pages-to-a-common-child scenario the
common page c is appended to the frontier twice (once per discovering
page), so "enqueued only once" fails on the code; deduplication happens at
dequeue time. -/
theorem C4_counterexample :
    bfsRun.enqLog.countP (fun p => decide (p.1 = "http://a.com/d/c")) = 2 ∧
      bfsRun.enqLog.countP (fun p => decide (p.1 = "http://a.com/d/c")) ≠ 1 := by
  decide

/-- C4 (amended): traversal is breadth-first via a FIFO frontier; in the
scenario the common page c is enqueued once per page that links to it
(twice in total), but is fetched exactly once, after both a and b; the
result map lists the pages in breadth-first visit order and the frontier
drains. -/
theorem C4_breadth_first_order :
    bfsRun.fetchLog = [⟨"http://a.com/d", 0, true⟩, ⟨"http://a.com/d/a", 1, true⟩,
      ⟨"http://a.com/d/b", 1, true⟩, ⟨"http://a.com/d/c", 2, true⟩] ∧
    bfsRun.enqLog = [("http://a.com/d", 0), ("http://a.com/d/a", 1), ("http://a.com/d/b", 1),
      ("http://a.com/d/c", 2), ("http://a.com/d/c", 2)] ∧
    bfsRun.results.map Prod.fst = ["http://a.com/d", "http://a.com/d/a", "http://a.com/d/b",
      "http://a.com/d/c"] ∧
    bfsRun.queue = [] := by
  exact ⟨rfl, rfl, rfl, rfl⟩

/-- C7: a negative maxDepth makes the crawl entry point fail with the
invalid-argument error before any I/O: the result is the error, and it does
not depend on the fetcher at all (no fetch can have been attempted). -/
theorem C7_negative_depth_rejected (fetch fetch' : Fetcher) (start_url : String)
    (depth : Int) (fuel : Nat) (h : depth < 0) :
    scrapper_tool fetch start_url depth fuel = Except.error "Depth must be non-negative" ∧
      scrapper_tool fetch' start_url depth fuel = scrapper_tool fetch start_url depth fuel := by
  have h1 : scrapper_tool fetch start_url depth fuel =
      Except.error "Depth must be non-negative" := by
    unfold scrapper_tool
    rw [if_pos h]
  have h2 : scrapper_tool fetch' start_url depth fuel =
      Except.error "Depth must be non-negative" := by
    unfold scrapper_tool
    rw [if_pos h]
  exact ⟨h1, h2.trans h1.symm⟩

/-- C7 witness at depth -1. -/
theorem C7_witness :
    scrapper_tool fetchAllFail "http://a.com/x" (-1) 5 = Except.error "Depth must be non-negative" ∧
      scrapper_tool fetchNoLinks "http://a.com/x" (-1) 5 =
        scrapper_tool fetchAllFail "http://a.com/x" (-1) 5 :=
  C7_negative_depth_rejected fetchAllFail fetchNoLinks "http://a.com/x" (-1) 5 (by decide)

/-- C8: an input on which urlparse raises makes normalize_url fail with the
ValueError carrying the invalid-format message, and when that input is a
crawl's start URL the whole crawl fails with the same error before the
traversal loop runs (no state, hence no fetch, is ever produced). -/
theorem C8_unparseable_start_is_fatal (u e0 : String) (fetch : Fetcher)
    (maxDepth : Int) (fuel : Nat) (h : urlparseE "" u = Except.error e0) :
    normalize_url u = Except.error ("Invalid URL format: " ++ u) ∧
      scrape fetch u maxDepth fuel = Except.error ("Invalid URL format: " ++ u) := by
  have hn : normalize_url u = Except.error ("Invalid URL format: " ++ u) := by
    unfold normalize_url
    rw [h]
  refine ⟨hn, ?_⟩
  unfold scrape
  rw [hn]

/-- C8 witness: the bracket-mismatch URL rejected by urlsplit. -/
theorem C8_witness :
    normalize_url "http://[" = Except.error ("Invalid URL format: " ++ "http://[") ∧
      scrape fetchAllFail "http://[" 2 9 = Except.error ("Invalid URL format: " ++ "http://[") :=
  C8_unparseable_start_is_fatal "http://[" "Invalid IPv6 URL" fetchAllFail 2 9 rfl

/-! ### Crawl loop invariant lemmas -/

/-- Appending a fresh element preserves Nodup. -/
theorem nodup_snoc {α : Type} (l : List α) (a : α) (h : l.Nodup) (ha : a ∉ l) :
    (l ++ [a]).Nodup := by
  induction l with
  | nil => simp
  | cons b bs ih =>
    rw [List.cons_append, List.nodup_cons]
    refine ⟨?_, ih (List.nodup_cons.mp h).2 (fun hm => ha (List.mem_cons_of_mem b hm))⟩
    intro hb
    rcases List.mem_append.mp hb with hb | hb
    · exact (List.nodup_cons.mp h).1 hb
    · rcases List.mem_singleton.mp hb with rfl
      exact ha (List.mem_cons_self _ _)

/-- The loop invariant holds at the initial state. -/
theorem crawlInv_init (maxDepth : Int) (base : String) :
    CrawlInv maxDepth (initState base) := by
  constructor <;> simp [initState]

/-- One step of the loop preserves the invariant. -/
theorem crawlInv_step (fetch : Fetcher) (base : String) (maxDepth : Int)
    (s : CrawlState) (h : CrawlInv maxDepth s) :
    CrawlInv maxDepth (crawlStep fetch base maxDepth s) := by
  obtain ⟨h1, h2, h3, h4⟩ := h
  unfold crawlStep
  rcases hq : s.queue with _ | ⟨⟨url, depth⟩, rest⟩
  · exact ⟨h1, h2, h3, h4⟩
  · dsimp only
    by_cases hg : url ∈ s.visited ∨ maxDepth < depth
    · rw [if_pos hg]
      exact ⟨h1, h2, h3, h4⟩
    · rw [if_neg hg]
      push_neg at hg
      obtain ⟨hnv, hd⟩ := hg
      have hvis : s.visited ++ [url] =
          (s.fetchLog ++ [(⟨url, depth, false⟩ : FetchEvent)]).map FetchEvent.url := by
        rw [List.map_append, ← h1]
        rfl
      have hvisT : s.visited ++ [url] =
          (s.fetchLog ++ [(⟨url, depth, true⟩ : FetchEvent)]).map FetchEvent.url := by
        rw [List.map_append, ← h1]
        rfl
      have hnd : (s.visited ++ [url]).Nodup := nodup_snoc s.visited url h2 hnv
      have hdep : ∀ b : Bool, ∀ e ∈ s.fetchLog ++ [(⟨url, depth, b⟩ : FetchEvent)],
          e.depth ≤ maxDepth := by
        intro b e he
        rcases List.mem_append.mp he with he | he
        · exact h3 e he
        · rcases List.mem_singleton.mp he with rfl
          exact hd
      cases hf : fetch url with
      | raises =>
        refine ⟨hvis, hnd, hdep false, ?_⟩
        rw [List.filter_append, h4]
        simp
      | failure =>
        refine ⟨hvis, hnd, hdep false, ?_⟩
        rw [List.filter_append, h4]
        simp
      | success links =>
        refine ⟨hvisT, hnd, hdep true, ?_⟩
        rw [List.map_append, List.filter_append, List.map_append, h4]
        simp

/-- Running any number of steps preserves the invariant. -/
theorem crawlInv_run (fetch : Fetcher) (base : String) (maxDepth : Int) :
    ∀ (n : Nat) (s : CrawlState), CrawlInv maxDepth s →
      CrawlInv maxDepth (crawlRun fetch base maxDepth n s) := by
  intro n
  induction n with
  | zero => intro s h; exact h
  | succ n ih =>
    intro s h
    exact ih (crawlStep fetch base maxDepth s) (crawlInv_step fetch base maxDepth s h)

/-- C1: over any crawl that scrape performs, the visited list is exactly
the list of fetched URLs in order, no URL is fetched twice, and no fetch
happens at a depth exceeding maxDepth. -/
theorem C1_at_most_once_within_depth (fetch : Fetcher) (start : String) (maxDepth : Int)
    (fuel : Nat) (s : CrawlState) (h : scrape fetch start maxDepth fuel = Except.ok s) :
    s.visited = s.fetchLog.map FetchEvent.url ∧
      (s.fetchLog.map FetchEvent.url).Nodup ∧
      ∀ e ∈ s.fetchLog, e.depth ≤ maxDepth := by
  unfold scrape at h
  rcases hn : normalize_url start with e | base
  · rw [hn] at h
    cases h
  · rw [hn] at h
    cases Except.ok.inj h
    have hI := crawlInv_run fetch base maxDepth fuel (initState base)
      (crawlInv_init maxDepth base)
    exact ⟨hI.vis_eq, hI.vis_eq ▸ hI.vis_nodup, hI.depths_le⟩

/-- C1 witness at a concrete one-page crawl. -/
theorem C1_witness :
    allFailRun.visited = allFailRun.fetchLog.map FetchEvent.url ∧
      (allFailRun.fetchLog.map FetchEvent.url).Nodup ∧
      ∀ e ∈ allFailRun.fetchLog, e.depth ≤ 0 :=
  C1_at_most_once_within_depth fetchAllFail "http://a.com/x" 0 2 allFailRun rfl

/-- C10: a successfully fetched page is recorded in the result map at the
moment of its fetch, before any of its links are processed, and results
are only ever appended, never removed.  Concretely: (a) over any number of
steps the result list only grows by a suffix; (b) when the head of the
frontier is an unvisited, depth-admissible URL whose fetch succeeds, the
step appends exactly that page to the results and continues with the rest
of the frontier, regardless of what the link list contains (in particular
when a malformed entry aborts link processing). -/
theorem C10_success_recorded_and_kept (fetch : Fetcher) (base : String) (maxDepth : Int)
    (s : CrawlState) :
    (∀ n, ∃ t, (crawlRun fetch base maxDepth n s).results = s.results ++ t) ∧
      (∀ url depth rest links,
        s.queue = (url, depth) :: rest → url ∉ s.visited → depth ≤ maxDepth →
        fetch url = FetchBehavior.success links →
        (crawlStep fetch base maxDepth s).results = s.results ++ [(url, links)] ∧
          ∃ extra, (crawlStep fetch base maxDepth s).queue = rest ++ extra) := by
  constructor
  · have hstep : ∀ s' : CrawlState, ∃ t,
        (crawlStep fetch base maxDepth s').results = s'.results ++ t := by
      intro s'
      unfold crawlStep
      rcases hq : s'.queue with _ | ⟨⟨url, depth⟩, rest⟩
      · exact ⟨[], by simp⟩
      · dsimp only
        by_cases hg : url ∈ s'.visited ∨ maxDepth < depth
        · rw [if_pos hg]
          exact ⟨[], by simp⟩
        · rw [if_neg hg]
          cases hf : fetch url with
          | raises => exact ⟨[], by simp⟩
          | failure => exact ⟨[], by simp⟩
          | success links => exact ⟨[(url, links)], rfl⟩
    intro n
    induction n generalizing s with
    | zero => exact ⟨[], by simp [crawlRun]⟩
    | succ n ih =>
      obtain ⟨t1, ht1⟩ := hstep s
      obtain ⟨t2, ht2⟩ := ih (crawlStep fetch base maxDepth s)
      exact ⟨t1 ++ t2, by rw [show crawlRun fetch base maxDepth (n + 1) s =
        crawlRun fetch base maxDepth n (crawlStep fetch base maxDepth s) from rfl,
        ht2, ht1, List.append_assoc]⟩
  · intro url depth rest links hq hnv hd hf
    unfold crawlStep
    rw [hq]
    dsimp only
    have hng : ¬(url ∈ s.visited ∨ maxDepth < depth) := by
      push_neg
      exact ⟨hnv, hd⟩
    rw [if_neg hng, hf]
    exact ⟨rfl, _, rfl⟩

/-- C10 witness: the malformed-link scenario, where the start page's link
list contains a malformed entry after one good link. -/
theorem C10_witness :
    (∀ n, ∃ t, (crawlRun fetcherMalformed "http://q.net/w" 2 n
        (initState "http://q.net/w")).results = (initState "http://q.net/w").results ++ t) ∧
      (∀ url depth rest links,
        (initState "http://q.net/w").queue = (url, depth) :: rest →
        url ∉ (initState "http://q.net/w").visited → depth ≤ 2 →
        fetcherMalformed url = FetchBehavior.success links →
        (crawlStep fetcherMalformed "http://q.net/w" 2
            (initState "http://q.net/w")).results =
          (initState "http://q.net/w").results ++ [(url, links)] ∧
          ∃ extra, (crawlStep fetcherMalformed "http://q.net/w" 2
              (initState "http://q.net/w")).queue = rest ++ extra) :=
  C10_success_recorded_and_kept fetcherMalformed "http://q.net/w" 2 (initState "http://q.net/w")

/-! ### Termination of the crawl loop -/

/-- Link processing emits at most one frontier entry per link entry. -/
theorem processLinks_length_le (base cur : String) (vis : List String) (d : Int) :
    ∀ links : List LinkEntry, (processLinks base cur vis d links).length ≤ links.length := by
  intro links
  induction links with
  | nil => simp [processLinks]
  | cons e rest ih =>
    cases e with
    | malformed => simp [processLinks]
    | href h =>
      unfold processLinks
      cases hj : (join_url base cur h).bind normalize_url with
      | error err => exact Nat.le_succ_of_le ih
      | ok nu =>
        dsimp only
        by_cases hv : (is_valid_internal_link base nu && decide (nu ∉ vis)) = true
        · rw [if_pos hv]
          exact Nat.succ_le_succ ih
        · rw [if_neg hv]
          exact Nat.le_succ_of_le ih

/-- Every frontier entry produced by link processing is a link candidate of
the page (its URL survives the join-normalize-validate pipeline). -/
theorem processLinks_mem (base cur : String) (vis : List String) (d : Int) :
    ∀ (links : List LinkEntry) (q : String × Int), q ∈ processLinks base cur vis d links →
      q.1 ∈ linkCandidates base cur links := by
  intro links
  induction links with
  | nil => intro q hq; simp [processLinks] at hq
  | cons e rest ih =>
    cases e with
    | malformed => intro q hq; simp [processLinks] at hq
    | href h =>
      intro q hq
      unfold processLinks at hq
      unfold linkCandidates
      cases hj : (join_url base cur h).bind normalize_url with
      | error err =>
        rw [hj] at hq
        exact ih q hq
      | ok nu =>
        rw [hj] at hq
        dsimp only at hq ⊢
        by_cases hv1 : is_valid_internal_link base nu = true
        · rw [if_pos hv1]
          by_cases hv2 : (is_valid_internal_link base nu && decide (nu ∉ vis)) = true
          · rw [if_pos hv2] at hq
            rcases List.mem_cons.mp hq with rfl | hq
            · exact List.mem_cons_self _ _
            · exact List.mem_cons_of_mem _ (ih q hq)
          · rw [if_neg hv2] at hq
            exact List.mem_cons_of_mem _ (ih q hq)
        · have hv2 : (is_valid_internal_link base nu && decide (nu ∉ vis)) = false := by
            rw [Bool.of_not_eq_true hv1, Bool.false_and]
          rw [if_neg (by rw [hv2]; exact Bool.false_ne_true)] at hq
          rw [if_neg hv1]
          exact ih q hq

/-- The link-count bound is respected by every member of the universe. -/
theorem maxLinkCount_ge (fetch : Fetcher) (U : List String) (u : String) (hu : u ∈ U) :
    (linksOf (fetch u)).length ≤ maxLinkCount fetch U := by
  induction U with
  | nil => cases hu
  | cons a U' ih =>
    simp only [maxLinkCount, List.map_cons, List.foldr_cons]
    rcases List.mem_cons.mp hu with rfl | hu'
    · exact Nat.le_max_left _ _
    · exact Nat.le_trans (ih hu') (Nat.le_max_right _ _)

/-- Extending the visited set can only shrink the unvisited filter. -/
theorem length_filter_mono_vis (U vis : List String) (url : String) :
    (U.filter (fun u => decide (u ∉ vis ++ [url]))).length ≤
      (U.filter (fun u => decide (u ∉ vis))).length := by
  induction U with
  | nil => simp
  | cons a U' ih =>
    simp only [List.filter_cons]
    by_cases h2 : a ∉ vis ++ [url]
    · have h1 : a ∉ vis := fun hm => h2 (List.mem_append.mpr (Or.inl hm))
      rw [decide_eq_true h2, decide_eq_true h1, if_pos rfl, if_pos rfl]
      exact Nat.succ_le_succ ih
    · rw [decide_eq_false h2, if_neg Bool.false_ne_true]
      by_cases h1 : a ∉ vis
      · rw [decide_eq_true h1, if_pos rfl]
        exact Nat.le_succ_of_le ih
      · rw [decide_eq_false h1, if_neg Bool.false_ne_true]
        exact ih

/-- Marking an unvisited member of the universe visited strictly shrinks
the unvisited filter. -/
theorem length_filter_snoc_lt (U vis : List String) (url : String) (hU : url ∈ U)
    (hnv : url ∉ vis) :
    (U.filter (fun u => decide (u ∉ vis ++ [url]))).length <
      (U.filter (fun u => decide (u ∉ vis))).length := by
  induction U with
  | nil => cases hU
  | cons a U' ih =>
    simp only [List.filter_cons]
    by_cases ha : a = url
    · subst ha
      have h2 : ¬ a ∉ vis ++ [a] := fun hc =>
        hc (List.mem_append.mpr (Or.inr (List.mem_singleton.mpr rfl)))
      rw [decide_eq_false h2, if_neg Bool.false_ne_true, decide_eq_true hnv, if_pos rfl,
        List.length_cons]
      exact Nat.lt_succ_of_le (length_filter_mono_vis U' vis a)
    · have hU' : url ∈ U' := by
        rcases List.mem_cons.mp hU with h | h
        · exact absurd h.symm ha
        · exact h
      by_cases h2 : a ∉ vis ++ [url]
      · have h1 : a ∉ vis := fun hm => h2 (List.mem_append.mpr (Or.inl hm))
        rw [decide_eq_true h2, decide_eq_true h1, if_pos rfl, if_pos rfl,
          List.length_cons, List.length_cons]
        exact Nat.succ_lt_succ (ih hU')
      · rw [decide_eq_false h2, if_neg Bool.false_ne_true]
        by_cases h1 : a ∉ vis
        · rw [decide_eq_true h1, if_pos rfl, List.length_cons]
          exact Nat.lt_succ_of_lt (ih hU')
        · rw [decide_eq_false h1, if_neg Bool.false_ne_true]
          exact ih hU'

/-- A step on an empty frontier does nothing. -/
theorem crawlStep_of_empty (fetch : Fetcher) (base : String) (maxDepth : Int)
    (s : CrawlState) (h : s.queue = []) : crawlStep fetch base maxDepth s = s := by
  unfold crawlStep
  rw [h]

/-- A run from an empty frontier does nothing: the final state is fixed. -/
theorem crawlRun_of_empty (fetch : Fetcher) (base : String) (maxDepth : Int) :
    ∀ (n : Nat) (s : CrawlState), s.queue = [] → crawlRun fetch base maxDepth n s = s := by
  intro n
  induction n with
  | zero => intro s _; rfl
  | succ n ih =>
    intro s h
    show crawlRun fetch base maxDepth n (crawlStep fetch base maxDepth s) = s
    rw [crawlStep_of_empty fetch base maxDepth s h]
    exact ih s h

/-- The initial frontier lies in any universe containing the base URL. -/
theorem queueInU_init (U : List String) (base : String) (hb : base ∈ U) :
    QueueInU U (initState base) := by
  intro p hp
  have : p = (base, 0) := List.mem_singleton.mp hp
  rw [this]
  exact hb

/-- The frontier stays inside a universe closed under link candidates. -/
theorem queueInU_step (fetch : Fetcher) (base : String) (maxDepth : Int) (U : List String)
    (s : CrawlState)
    (hcl : ∀ u ∈ U, ∀ v ∈ linkCandidates base u (linksOf (fetch u)), v ∈ U)
    (h : QueueInU U s) : QueueInU U (crawlStep fetch base maxDepth s) := by
  unfold crawlStep
  rcases hq : s.queue with _ | ⟨⟨url, depth⟩, rest⟩
  · exact h
  · dsimp only
    have hrest : ∀ p ∈ rest, p.1 ∈ U := fun p hp =>
      h p (by rw [hq]; exact List.mem_cons_of_mem _ hp)
    have hurl : url ∈ U := h (url, depth) (by rw [hq]; exact List.mem_cons_self _ _)
    by_cases hg : url ∈ s.visited ∨ maxDepth < depth
    · rw [if_pos hg]
      intro p hp
      exact hrest p hp
    · rw [if_neg hg]
      cases hf : fetch url with
      | raises => intro p hp; exact hrest p hp
      | failure => intro p hp; exact hrest p hp
      | success links =>
        intro p hp
        rcases List.mem_append.mp hp with hp | hp
        · exact hrest p hp
        · by_cases hdm : depth < maxDepth
          · rw [if_pos hdm] at hp
            have hc := processLinks_mem base url (s.visited ++ [url]) (depth + 1) links p hp
            have hlof : links = linksOf (fetch url) := by rw [hf]; rfl
            exact hcl url hurl p.1 (hlof ▸ hc)
          · rw [if_neg hdm] at hp
            cases hp

/-- Each step on a nonempty frontier strictly decreases the measure, as
long as the frontier stays inside the universe. -/
theorem crawlMeasure_step_lt (fetch : Fetcher) (base : String) (maxDepth : Int)
    (U : List String) (s : CrawlState) (hq : s.queue ≠ []) (hQ : QueueInU U s) :
    crawlMeasure fetch U (crawlStep fetch base maxDepth s) < crawlMeasure fetch U s := by
  rcases hqe : s.queue with _ | ⟨⟨url, depth⟩, rest⟩
  · exact absurd hqe hq
  unfold crawlMeasure crawlStep
  rw [hqe]
  dsimp only
  by_cases hg : url ∈ s.visited ∨ maxDepth < depth
  · rw [if_pos hg]
    exact Nat.add_lt_add_left (Nat.lt_succ_self _) _
  · rw [if_neg hg]
    push_neg at hg
    obtain ⟨hnv, _⟩ := hg
    have hurl : url ∈ U := hQ (url, depth) (by rw [hqe]; exact List.mem_cons_self _ _)
    have hflt := length_filter_snoc_lt U s.visited url hurl hnv
    cases hf : fetch url with
    | raises =>
      exact Nat.add_lt_add (Nat.mul_lt_mul_of_pos_right hflt (Nat.succ_pos _))
        (Nat.lt_succ_self _)
    | failure =>
      exact Nat.add_lt_add (Nat.mul_lt_mul_of_pos_right hflt (Nat.succ_pos _))
        (Nat.lt_succ_self _)
    | success links =>
      rw [List.length_append]
      have hm : (if depth < maxDepth then
          processLinks base url (s.visited ++ [url]) (depth + 1) links else []).length ≤
          maxLinkCount fetch U := by
        split
        · refine Nat.le_trans (processLinks_length_le base url (s.visited ++ [url])
            (depth + 1) links) ?_
          have hlof : links = linksOf (fetch url) := by rw [hf]; rfl
          rw [hlof]
          exact maxLinkCount_ge fetch U url hurl
        · exact Nat.zero_le _
      have key : (U.filter (fun u => decide (u ∉ s.visited ++ [url]))).length *
            (maxLinkCount fetch U + 1) + (maxLinkCount fetch U + 1) ≤
          (U.filter (fun u => decide (u ∉ s.visited))).length *
            (maxLinkCount fetch U + 1) := by
        have h1 := Nat.mul_le_mul_right (maxLinkCount fetch U + 1) hflt
        rwa [Nat.succ_mul] at h1
      calc (U.filter (fun u => decide (u ∉ s.visited ++ [url]))).length *
            (maxLinkCount fetch U + 1) + (rest.length + (if depth < maxDepth then
              processLinks base url (s.visited ++ [url]) (depth + 1) links else []).length)
          ≤ (U.filter (fun u => decide (u ∉ s.visited ++ [url]))).length *
            (maxLinkCount fetch U + 1) + (rest.length + maxLinkCount fetch U) :=
            Nat.add_le_add_left (Nat.add_le_add_left hm _) _
        _ < (U.filter (fun u => decide (u ∉ s.visited ++ [url]))).length *
            (maxLinkCount fetch U + 1) + (rest.length + (maxLinkCount fetch U + 1)) :=
            Nat.add_lt_add_left (Nat.add_lt_add_left (Nat.lt_succ_self _) _) _
        _ = ((U.filter (fun u => decide (u ∉ s.visited ++ [url]))).length *
            (maxLinkCount fetch U + 1) + (maxLinkCount fetch U + 1)) + rest.length := by
            rw [Nat.add_assoc, Nat.add_comm rest.length _, ← Nat.add_assoc]
        _ ≤ (U.filter (fun u => decide (u ∉ s.visited))).length *
            (maxLinkCount fetch U + 1) + rest.length := Nat.add_le_add_right key _
        _ < (U.filter (fun u => decide (u ∉ s.visited))).length *
            (maxLinkCount fetch U + 1) + (rest.length + 1) :=
            Nat.add_lt_add_left (Nat.lt_succ_self _) _

/-- Enough fuel drains the frontier: from any state whose measure is at
most the fuel, the run ends with an empty queue. -/
theorem crawlRun_reaches_empty (fetch : Fetcher) (base : String) (maxDepth : Int)
    (U : List String)
    (hcl : ∀ u ∈ U, ∀ v ∈ linkCandidates base u (linksOf (fetch u)), v ∈ U) :
    ∀ (n : Nat) (s : CrawlState), QueueInU U s → crawlMeasure fetch U s ≤ n →
      (crawlRun fetch base maxDepth n s).queue = [] := by
  intro n
  induction n with
  | zero =>
    intro s _ hm
    unfold crawlMeasure at hm
    have hlen : s.queue.length = 0 :=
      Nat.eq_zero_of_le_zero (Nat.le_trans (Nat.le_add_left _ _) hm)
    exact List.length_eq_zero.mp hlen
  | succ n ih =>
    intro s hQ hm
    rcases hqe : s.queue with _ | _
    · rw [crawlRun_of_empty fetch base maxDepth (n + 1) s hqe]
      exact hqe
    · have hlt := crawlMeasure_step_lt fetch base maxDepth U s (by rw [hqe]; simp) hQ
      exact ih (crawlStep fetch base maxDepth s)
        (queueInU_step fetch base maxDepth U s hcl hQ)
        (Nat.lt_succ_iff.mp (Nat.lt_of_lt_of_le hlt hm))

/-- Partition of a list's length by a boolean predicate. -/
theorem length_filter_split {α : Type} (p : α → Bool) (l : List α) :
    (l.filter p).length + (l.filter (fun a => !p a)).length = l.length := by
  induction l with
  | nil => rfl
  | cons a t ih =>
    simp only [List.filter_cons]
    cases hpa : p a
    · rw [if_neg Bool.false_ne_true, Bool.not_false, if_pos rfl]
      simp only [List.length_cons]
      omega
    · rw [if_pos rfl, Bool.not_true, if_neg Bool.false_ne_true]
      simp only [List.length_cons]
      omega

/-! ### List and character toolbox for the reparse development -/

/-- Case split for a true disjunction of booleans. -/
theorem bor_elim {a b : Bool} (h : (a || b) = true) : a = true ∨ b = true := by
  cases a
  · exact Or.inr (by simpa using h)
  · exact Or.inl rfl

/-- Components of a true conjunction of booleans. -/
theorem band_elim {a b : Bool} (h : (a && b) = true) : a = true ∧ b = true := by
  cases a
  · cases h
  · exact ⟨rfl, by simpa using h⟩

/-- Decomposition of a successful first-occurrence split. -/
theorem splitFirst_eq_some (d : Char) :
    ∀ {l a b : List Char}, splitFirst d l = some (a, b) → l = a ++ d :: b ∧ d ∉ a := by
  intro l
  induction l with
  | nil => intro a b h; cases h
  | cons c cs ih =>
    intro a b h
    unfold splitFirst at h
    by_cases hc : c = d
    · rw [if_pos hc, Option.some_inj] at h
      cases h
      exact ⟨by rw [hc, List.nil_append], List.not_mem_nil d⟩
    · rw [if_neg hc] at h
      rcases hs : splitFirst d cs with _ | ⟨a', b'⟩
      · rw [hs] at h; cases h
      · rw [hs, Option.some_inj] at h
        cases h
        obtain ⟨hdec, hna⟩ := ih hs
        refine ⟨by rw [List.cons_append, ← hdec], ?_⟩
        intro hm
        rcases List.mem_cons.mp hm with hm | hm
        · exact hc hm.symm
        · exact hna hm

/-- A missing delimiter means a failed split. -/
theorem splitFirst_eq_none (d : Char) :
    ∀ {l : List Char}, d ∉ l → splitFirst d l = none := by
  intro l
  induction l with
  | nil => intro _; rfl
  | cons c cs ih =>
    intro h
    unfold splitFirst
    have hc : ¬ c = d := fun hcd => h (hcd ▸ List.mem_cons_self c cs)
    rw [if_neg hc, ih (fun hm => h (List.mem_cons_of_mem c hm))]

/-- A present delimiter means a successful split. -/
theorem splitFirst_isSome (d : Char) :
    ∀ {l : List Char}, d ∈ l → ∃ a b, splitFirst d l = some (a, b) := by
  intro l
  induction l with
  | nil => intro h; cases h
  | cons c cs ih =>
    intro h
    unfold splitFirst
    by_cases hc : c = d
    · rw [if_pos hc]; exact ⟨[], cs, rfl⟩
    · rw [if_neg hc]
      have hcs : d ∈ cs := by
        rcases List.mem_cons.mp h with h | h
        · exact absurd h.symm hc
        · exact h
      obtain ⟨a, b, hab⟩ := ih hcs
      rw [hab]
      exact ⟨c :: a, b, rfl⟩

/-- Splitting at a known first occurrence. -/
theorem splitFirst_append (d : Char) :
    ∀ (a r : List Char), d ∉ a → splitFirst d (a ++ d :: r) = some (a, r) := by
  intro a
  induction a with
  | nil =>
    intro r _
    rw [List.nil_append]
    unfold splitFirst
    rw [if_pos rfl]
  | cons c cs ih =>
    intro r h
    have hc : ¬ c = d := fun hcd => h (hcd ▸ List.mem_cons_self c cs)
    rw [List.cons_append]
    unfold splitFirst
    rw [if_neg hc, ih r (fun hm => h (List.mem_cons_of_mem c hm))]

/-- A split below a delimiter-free prefix. -/
theorem splitFirst_append_some (d : Char) (x y a b : List Char) (hx : d ∉ x)
    (hy : splitFirst d y = some (a, b)) : splitFirst d (x ++ y) = some (x ++ a, b) := by
  obtain ⟨hdec, hna⟩ := splitFirst_eq_some d hy
  rw [hdec, ← List.append_assoc]
  exact splitFirst_append d (x ++ a) b (by
    intro hm
    rcases List.mem_append.mp hm with hm | hm
    · exact hx hm
    · exact hna hm)

/-- The netloc scanner consumes exactly a delimiter-free prefix. -/
theorem takeUntilDelims_exact :
    ∀ (n r : List Char), (∀ ch ∈ n, ch ≠ '/' ∧ ch ≠ '?' ∧ ch ≠ '#') →
      (r = [] ∨ ∃ ch cs, r = ch :: cs ∧ (ch = '/' ∨ ch = '?' ∨ ch = '#')) →
      takeUntilDelims (n ++ r) = (n, r) := by
  intro n
  induction n with
  | nil =>
    intro r _ hr
    rcases hr with rfl | ⟨ch, cs, rfl, hch⟩
    · rfl
    · rw [List.nil_append]
      unfold takeUntilDelims
      have : (ch = '/' || ch = '?' || ch = '#') = true := by
        rcases hch with rfl | rfl | rfl <;> simp
      rw [if_pos this]
  | cons c cs ih =>
    intro r hn hr
    rw [List.cons_append]
    unfold takeUntilDelims
    obtain ⟨h1, h2, h3⟩ := hn c (List.mem_cons_self c cs)
    have hcond : (c = '/' || c = '?' || c = '#') = false := by
      rw [decide_eq_false h1, decide_eq_false h2, decide_eq_false h3]
      rfl
    rw [if_neg (by rw [hcond]; exact Bool.false_ne_true)]
    rw [ih r (fun ch hm => hn ch (List.mem_cons_of_mem c hm)) hr]

/-- The netloc scanner's output: the input splits into a delimiter-free
prefix and a remainder that is empty or starts with a delimiter. -/
theorem takeUntilDelims_spec :
    ∀ l : List Char, l = (takeUntilDelims l).1 ++ (takeUntilDelims l).2 ∧
      (∀ ch ∈ (takeUntilDelims l).1, ch ≠ '/' ∧ ch ≠ '?' ∧ ch ≠ '#') ∧
      ((takeUntilDelims l).2 = [] ∨ ∃ ch cs, (takeUntilDelims l).2 = ch :: cs ∧
        (ch = '/' ∨ ch = '?' ∨ ch = '#')) := by
  intro l
  induction l with
  | nil => exact ⟨rfl, fun ch hm => absurd hm (List.not_mem_nil ch), Or.inl rfl⟩
  | cons c cs ih =>
    unfold takeUntilDelims
    by_cases hd : (c = '/' || c = '?' || c = '#') = true
    · rw [if_pos hd]
      refine ⟨rfl, fun ch hm => absurd hm (List.not_mem_nil ch), Or.inr ⟨c, cs, rfl, ?_⟩⟩
      rcases bor_elim hd with h | h
      · rcases bor_elim h with h | h
        · exact Or.inl (of_decide_eq_true h)
        · exact Or.inr (Or.inl (of_decide_eq_true h))
      · exact Or.inr (Or.inr (of_decide_eq_true h))
    · rw [if_neg hd]
      obtain ⟨ih1, ih2, ih3⟩ := ih
      refine ⟨?_, ?_, ih3⟩
      · exact congrArg (List.cons c) ih1
      · intro ch hm
        rcases List.mem_cons.mp hm with rfl | hm
        · refine ⟨?_, ?_, ?_⟩ <;> intro he <;> subst he <;> simp at hd
        · exact ih2 ch hm

/-- Unsafe bytes are control characters. -/
theorem isC0OrSpace_of_unsafe (c : Char) (h : isUnsafeByte c = true) :
    isC0OrSpace c = true := by
  unfold isUnsafeByte at h
  rcases bor_elim h with h | h
  · rcases bor_elim h with h | h
    · rw [of_decide_eq_true h]; decide
    · rw [of_decide_eq_true h]; decide
  · rw [of_decide_eq_true h]; decide

/-- The WHATWG lstrip and the unsafe-byte removal do nothing on a string
whose head is not a control character and that has no unsafe bytes. -/
theorem clean_noop (l : List Char)
    (h1 : ∀ ch, l.head? = some ch → isC0OrSpace ch = false)
    (h2 : ∀ ch ∈ l, isUnsafeByte ch = false) :
    (l.dropWhile isC0OrSpace).filter (fun ch => !isUnsafeByte ch) = l := by
  have hd : l.dropWhile isC0OrSpace = l := by
    cases l with
    | nil => rfl
    | cons c cs =>
      rw [List.dropWhile_cons]
      rw [h1 c rfl]
      rfl
  rw [hd]
  exact List.filter_eq_self.mpr (fun a ha => by rw [h2 a ha]; rfl)

/-- Round-trip for the string constructor. -/
theorem string_mk_data (s : String) : String.mk s.data = s := by
  cases s
  rfl

/-- Emptiness transfers through the string constructor. -/
theorem string_mk_eq_empty_iff (l : List Char) : String.mk l = "" ↔ l = [] := by
  constructor
  · intro h
    exact congrArg String.data h
  · intro h
    rw [h]

/-- Prefix tests in terms of list shapes: the two-slash case. -/
theorem listStartsWith_pair (l : List Char) :
    listStartsWith l ['/', '/'] = true ↔ ∃ t, l = '/' :: '/' :: t := by
  rcases l with _ | ⟨c1, _ | ⟨c2, t⟩⟩
  · simp [listStartsWith]
  · constructor
    · intro h
      unfold listStartsWith at h
      rcases band_elim h with ⟨_, h2⟩
      cases h2
    · rintro ⟨t, ht⟩
      cases ht
  · constructor
    · intro h
      unfold listStartsWith at h
      rcases band_elim h with ⟨h1, h2⟩
      unfold listStartsWith at h2
      rcases band_elim h2 with ⟨h2, _⟩
      rw [of_decide_eq_true h1, of_decide_eq_true h2]
      exact ⟨t, rfl⟩
    · rintro ⟨t', ht⟩
      injection ht with e1 ht'
      injection ht' with e2 _
      subst e1
      subst e2
      simp [listStartsWith]

/-- Prefix tests in terms of list shapes: the one-slash case. -/
theorem listStartsWith_single (l : List Char) :
    listStartsWith l ['/'] = true ↔ ∃ t, l = '/' :: t := by
  rcases l with _ | ⟨c1, t⟩
  · simp [listStartsWith]
  · constructor
    · intro h
      unfold listStartsWith at h
      rcases band_elim h with ⟨h1, _⟩
      rw [of_decide_eq_true h1]
      exact ⟨t, rfl⟩
    · rintro ⟨t', ht⟩
      injection ht with e1 _
      subst e1
      simp [listStartsWith]

/-- Conversions of characters built from valid code points. -/
theorem char_toNat_ofNat_valid (n : Nat) (h : n.isValidChar) : (Char.ofNat n).toNat = n := by
  rw [Char.ofNat, dif_pos h]
  rfl

/-- Upper-case test through code points. -/
theorem char_isUpper_iff (c : Char) : c.isUpper = true ↔ 65 ≤ c.toNat ∧ c.toNat ≤ 90 := by
  simp [Char.isUpper, UInt32.le_def, BitVec.le_def]
  rfl

/-- Lower-case test through code points. -/
theorem char_isLower_iff (c : Char) : c.isLower = true ↔ 97 ≤ c.toNat ∧ c.toNat ≤ 122 := by
  simp [Char.isLower, UInt32.le_def, BitVec.le_def]
  rfl

/-- Digit test through code points. -/
theorem char_isDigit_iff (c : Char) : c.isDigit = true ↔ 48 ≤ c.toNat ∧ c.toNat ≤ 57 := by
  simp [Char.isDigit, UInt32.le_def, BitVec.le_def]
  rfl

/-- Characters are determined by their code points. -/
theorem char_eq_iff_toNat (c d : Char) : c = d ↔ c.toNat = d.toNat := by
  constructor
  · intro h; rw [h]
  · intro h
    rw [← Char.ofNat_toNat c, ← Char.ofNat_toNat d, h]

/-- Code point of a lower-cased character. -/
theorem char_toLower_toNat (c : Char) :
    c.toLower.toNat = if 65 ≤ c.toNat ∧ c.toNat ≤ 90 then c.toNat + 32 else c.toNat := by
  unfold Char.toLower
  split
  · next h =>
    rw [if_pos h]
    exact char_toNat_ofNat_valid _ (Or.inl (by omega))
  · next h =>
    rw [if_neg h]

/-- Lower-casing is idempotent. -/
theorem char_toLower_idem (c : Char) : c.toLower.toLower = c.toLower := by
  rw [char_eq_iff_toNat, char_toLower_toNat, char_toLower_toNat c]
  by_cases h : 65 ≤ c.toNat ∧ c.toNat ≤ 90
  · rw [if_pos h, if_neg (by omega)]
  · rw [if_neg h, if_neg h]

/-- Lower-casing preserves letters. -/
theorem char_isAlpha_toLower (c : Char) (h : c.isAlpha = true) : c.toLower.isAlpha = true := by
  unfold Char.isAlpha at h ⊢
  rcases bor_elim h with h | h
  · have hu := (char_isUpper_iff c).mp h
    have : c.toLower.isLower = true := by
      rw [char_isLower_iff, char_toLower_toNat, if_pos hu]
      omega
    rw [this, Bool.or_true]
  · have hl := (char_isLower_iff c).mp h
    have heq : c.toLower = c := by
      rw [char_eq_iff_toNat, char_toLower_toNat, if_neg (by omega)]
    rw [heq, h, Bool.or_true]

/-- Case analysis on membership in the scheme alphabet. -/
theorem schemeChar_elim {c : Char} (h : schemeChar c = true) :
    c.isAlpha = true ∨ c.isDigit = true ∨ c = '+' ∨ c = '-' ∨ c = '.' := by
  unfold schemeChar at h
  rcases bor_elim h with h | h
  · rcases bor_elim h with h | h
    · rcases bor_elim h with h | h
      · rcases bor_elim h with h | h
        · exact Or.inl h
        · exact Or.inr (Or.inl h)
      · exact Or.inr (Or.inr (Or.inl (of_decide_eq_true h)))
    · exact Or.inr (Or.inr (Or.inr (Or.inl (of_decide_eq_true h))))
  · exact Or.inr (Or.inr (Or.inr (Or.inr (of_decide_eq_true h))))

/-- Lower-casing preserves the scheme alphabet. -/
theorem schemeChar_toLower (c : Char) (h : schemeChar c = true) :
    schemeChar c.toLower = true := by
  rcases schemeChar_elim h with h | h | h | h | h
  · unfold schemeChar
    rw [char_isAlpha_toLower c h]
    rfl
  · have heq : c.toLower = c := by
      rw [char_eq_iff_toNat, char_toLower_toNat,
        if_neg (by have := (char_isDigit_iff c).mp h; omega)]
    rw [heq]
    unfold schemeChar
    simp [h]
  · subst h; decide
  · subst h; decide
  · subst h; decide

/-- Scheme characters are never delimiters, unsafe bytes or control
characters. -/
theorem schemeChar_props (c : Char) (h : schemeChar c = true) :
    c ≠ ':' ∧ c ≠ '/' ∧ c ≠ '?' ∧ c ≠ '#' ∧ c ≠ ';' ∧ isUnsafeByte c = false ∧
      isC0OrSpace c = false := by
  refine ⟨?_, ?_, ?_, ?_, ?_, ?_, ?_⟩
  · intro he; subst he; exact absurd h (by decide)
  · intro he; subst he; exact absurd h (by decide)
  · intro he; subst he; exact absurd h (by decide)
  · intro he; subst he; exact absurd h (by decide)
  · intro he; subst he; exact absurd h (by decide)
  · cases hb : isUnsafeByte c
    · rfl
    · exfalso
      unfold isUnsafeByte at hb
      rcases bor_elim hb with hb | hb
      · rcases bor_elim hb with hb | hb
        · rw [of_decide_eq_true hb] at h; exact absurd h (by decide)
        · rw [of_decide_eq_true hb] at h; exact absurd h (by decide)
      · rw [of_decide_eq_true hb] at h; exact absurd h (by decide)
  · cases hb : isC0OrSpace c
    · rfl
    · exfalso
      have hle : c.toNat ≤ 32 := UInt32.toNat_le_of_le (by decide) (of_decide_eq_true hb)
      rcases schemeChar_elim h with h | h | h | h | h
      · unfold Char.isAlpha at h
        rcases bor_elim h with h | h
        · have := (char_isUpper_iff c).mp h
          omega
        · have := (char_isLower_iff c).mp h
          omega
      · have := (char_isDigit_iff c).mp h
        omega
      · subst h
        exact absurd hb (by decide)
      · subst h
        exact absurd hb (by decide)
      · subst h
        exact absurd hb (by decide)

/-- A split's prefix is empty or starts where the input starts. -/
theorem splitFirst_pre_head (d : Char) (l pre post : List Char)
    (h : splitFirst d l = some (pre, post)) : pre = [] ∨ pre.head? = l.head? := by
  obtain ⟨hdec, _⟩ := splitFirst_eq_some d h
  rcases pre with _ | ⟨p, pr⟩
  · exact Or.inl rfl
  · right
    rw [hdec]
    rfl

/-- A split inside the left part of a concatenation. -/
theorem splitFirst_append_first (d : Char) (x y a b : List Char)
    (h : splitFirst d x = some (a, b)) : splitFirst d (x ++ y) = some (a, b ++ y) := by
  obtain ⟨hdec, hna⟩ := splitFirst_eq_some d h
  rw [hdec, List.append_assoc]
  exact splitFirst_append d a (b ++ y) hna

/-- Scheme detection succeeds on a well-formed lower-case scheme followed
by a colon. -/
theorem detectScheme_success (ch : Char) (cs rest : List Char)
    (halpha : ch.isAlpha = true) (hall : (ch :: cs).all schemeChar = true)
    (hlower : (ch :: cs).map Char.toLower = ch :: cs) :
    detectScheme ((ch :: cs) ++ ':' :: rest) = some (ch :: cs, rest) := by
  have hnc : ':' ∉ ch :: cs := by
    intro hm
    exact absurd (List.all_eq_true.mp hall _ hm) (by decide)
  unfold detectScheme
  rw [splitFirst_append ':' (ch :: cs) rest hnc]
  dsimp only
  rw [if_pos (by rw [halpha, hall]; rfl)]
  rw [hlower]

/-- Scheme detection fails when every candidate prefix is invalid. -/
theorem detectScheme_no (l : List Char)
    (h : ∀ pre post, splitFirst ':' l = some (pre, post) →
      pre = [] ∨ (∀ ch, pre.head? = some ch → ch.isAlpha = false) ∨
        ∃ ch ∈ pre, schemeChar ch = false) :
    detectScheme l = none := by
  unfold detectScheme
  rcases hs : splitFirst ':' l with _ | ⟨pre, post⟩
  · rfl
  · rcases pre with _ | ⟨ch, cs⟩
    · rfl
    · dsimp only
      rcases h (ch :: cs) post hs with h0 | hna | ⟨ch', hm, hbad⟩
      · cases h0
      · have hf : (ch.isAlpha && (ch :: cs).all schemeChar) = false := by
          rw [hna ch rfl]
          rfl
        rw [if_neg (by rw [hf]; exact Bool.false_ne_true)]
      · have hallf : (ch :: cs).all schemeChar = false := by
          cases hall : (ch :: cs).all schemeChar
          · rfl
          · have := List.all_eq_true.mp hall _ hm
            rw [this] at hbad
            cases hbad
        have hf : (ch.isAlpha && (ch :: cs).all schemeChar) = false := by
          rw [hallf, Bool.and_false]
        rw [if_neg (by rw [hf]; exact Bool.false_ne_true)]

/-- The netloc branch on a `//`-prefixed remainder. -/
theorem splitNetloc_double (n r : List Char)
    (hn : ∀ ch ∈ n, ch ≠ '/' ∧ ch ≠ '?' ∧ ch ≠ '#')
    (hb : ¬ (('[' ∈ n ∧ ']' ∉ n) ∨ (']' ∈ n ∧ '[' ∉ n)))
    (hr : r = [] ∨ ∃ ch cs, r = ch :: cs ∧ (ch = '/' ∨ ch = '?' ∨ ch = '#')) :
    splitNetloc ('/' :: '/' :: (n ++ r)) = Except.ok (n, r) := by
  unfold splitNetloc
  split
  case h_2 hcon =>
    exact absurd rfl (hcon (n ++ r))
  case h_1 rest heq =>
    injection heq with he1 heq1
    injection heq1 with he2 heq2
    subst heq2
    rw [takeUntilDelims_exact n r hn hr]
    dsimp only
    split
    case isTrue hcond =>
      exfalso
      rcases bor_elim hcond with hcond | hcond
      · obtain ⟨h1, h2⟩ := band_elim hcond
        exact hb (Or.inl ⟨of_decide_eq_true h1, of_decide_eq_true h2⟩)
      · obtain ⟨h1, h2⟩ := band_elim hcond
        exact hb (Or.inr ⟨of_decide_eq_true h1, of_decide_eq_true h2⟩)
    case isFalse => rfl

/-- The netloc branch does not fire without a `//` prefix. -/
theorem splitNetloc_not_double (l : List Char)
    (h : listStartsWith l ['/', '/'] = false) :
    splitNetloc l = Except.ok ([], l) := by
  unfold splitNetloc
  split
  · next rest =>
    simp [listStartsWith] at h
  · rfl

/-- Appending an optional query part cannot create a `//` prefix. -/
theorem listStartsWith_pair_append_false (c qp : List Char)
    (hc : listStartsWith c ['/', '/'] = false)
    (hq : qp = [] ∨ ∃ t, qp = '?' :: t) :
    listStartsWith (c ++ qp) ['/', '/'] = false := by
  cases hcc : listStartsWith (c ++ qp) ['/', '/']
  · rfl
  · exfalso
    obtain ⟨t, ht⟩ := (listStartsWith_pair _).mp hcc
    rcases c with _ | ⟨c1, _ | ⟨c2, cr⟩⟩
    · rw [List.nil_append] at ht
      rcases hq with rfl | ⟨t', rfl⟩
      · cases ht
      · injection ht with h1 _
        exact absurd h1 (by decide)
    · rw [List.singleton_append] at ht
      injection ht with h1 h2
      rcases hq with rfl | ⟨t', rfl⟩
      · cases h2
      · injection h2 with h3 _
        exact absurd h3 (by decide)
    · rw [List.cons_append, List.cons_append] at ht
      injection ht with h1 h2
      injection h2 with h3 _
      subst h1
      subst h3
      simp [listStartsWith] at hc

/-- The params splitter on a region made of a semicolon-free path part and
a slash-free params part. -/
theorem splitParams_sep (X R : List Char) (hX : ';' ∉ X) (hR : '/' ∉ R) :
    splitParams (X ++ ';' :: R) = (X, R) := by
  unfold splitParams splitLast
  by_cases hsl : '/' ∈ X
  · have hrev : (X ++ ';' :: R).reverse = R.reverse ++ ';' :: X.reverse := by
      rw [List.reverse_append, List.reverse_cons, List.append_assoc, List.singleton_append]
    obtain ⟨A, B, hAB⟩ := splitFirst_isSome '/' (List.mem_reverse.mpr hsl)
    obtain ⟨hXdec, hnA⟩ := splitFirst_eq_some '/' hAB
    have h1 : splitFirst '/' (';' :: X.reverse) = some (';' :: A, B) := by
      unfold splitFirst
      rw [if_neg (by decide), hAB]
    have h2 : splitFirst '/' ((X ++ ';' :: R).reverse) =
        some (R.reverse ++ ';' :: A, B) := by
      rw [hrev]
      exact splitFirst_append_some '/' R.reverse (';' :: X.reverse) (';' :: A) B
        (fun hm => hR (List.mem_reverse.mp hm)) h1
    rw [h2]
    dsimp only
    have hb2 : (R.reverse ++ ';' :: A).reverse = A.reverse ++ ';' :: R := by
      rw [List.reverse_append, List.reverse_cons, List.append_assoc, List.singleton_append,
        List.reverse_reverse]
    rw [hb2]
    have hnsemiA : ';' ∉ A.reverse := by
      intro hm
      apply hX
      apply List.mem_reverse.mp
      rw [hXdec]
      exact List.mem_append.mpr (Or.inl (List.mem_reverse.mp hm))
    rw [splitFirst_append ';' A.reverse R hnsemiA]
    dsimp only
    have hXeq : X = B.reverse ++ '/' :: A.reverse := by
      conv_lhs => rw [← X.reverse_reverse, hXdec]
      rw [List.reverse_append, List.reverse_cons, List.append_assoc, List.singleton_append]
    rw [hXeq]
  · have hno : '/' ∉ X ++ ';' :: R := by
      intro hm
      rcases List.mem_append.mp hm with hm | hm
      · exact hsl hm
      · rcases List.mem_cons.mp hm with hm | hm
        · exact absurd hm (by decide)
        · exact hR hm
    rw [splitFirst_eq_none '/' (fun hm => hno (List.mem_reverse.mp hm))]
    dsimp only
    rw [splitFirst_append ';' X R hX]

/-- Letters are not control characters. -/
theorem char_alpha_not_C0 (c : Char) (h : c.isAlpha = true) : isC0OrSpace c = false := by
  cases hb : isC0OrSpace c
  · rfl
  · exfalso
    have hle : c.toNat ≤ 32 := UInt32.toNat_le_of_le (by decide) (of_decide_eq_true hb)
    unfold Char.isAlpha at h
    rcases bor_elim h with h | h
    · have := (char_isUpper_iff c).mp h
      omega
    · have := (char_isLower_iff c).mp h
      omega

/-- C2: on every finite link graph (a finite universe `U` containing the
canonical start URL and closed under the link-candidate pipeline of the
fetcher), the crawl run with the stated explicit fuel drains the frontier
(the loop terminates: all further steps are the identity), and at
termination the visited-set size equals the result-map size plus the
number of failed fetches (failure results and raised exceptions). -/
theorem C2_terminates_with_accounting (fetch : Fetcher) (start : String) (maxDepth : Int)
    (U : List String) (base : String)
    (hb : normalize_url start = Except.ok base)
    (hbase : base ∈ U)
    (hcl : ∀ u ∈ U, ∀ v ∈ linkCandidates base u (linksOf (fetch u)), v ∈ U) :
    ∃ s, scrape fetch start maxDepth (U.length * (maxLinkCount fetch U + 1) + 1) =
        Except.ok s ∧
      s.queue = [] ∧ (∀ k, crawlRun fetch base maxDepth k s = s) ∧
      s.visited.length = s.results.length +
        (s.fetchLog.filter (fun e => !e.ok)).length := by
  have hmeas : crawlMeasure fetch U (initState base) ≤
      U.length * (maxLinkCount fetch U + 1) + 1 := by
    unfold crawlMeasure initState
    exact Nat.add_le_add_right
      (Nat.mul_le_mul_right _ (List.length_filter_le _ _)) 1
  have hempty := crawlRun_reaches_empty fetch base maxDepth U hcl
    (U.length * (maxLinkCount fetch U + 1) + 1) (initState base)
    (queueInU_init U base hbase) hmeas
  have hI := crawlInv_run fetch base maxDepth
    (U.length * (maxLinkCount fetch U + 1) + 1) (initState base)
    (crawlInv_init maxDepth base)
  refine ⟨crawlRun fetch base maxDepth (U.length * (maxLinkCount fetch U + 1) + 1)
    (initState base), ?_, hempty, ?_, ?_⟩
  · unfold scrape
    rw [hb]
  · intro k
    exact crawlRun_of_empty fetch base maxDepth k _ hempty
  · have h1 : (crawlRun fetch base maxDepth (U.length * (maxLinkCount fetch U + 1) + 1)
        (initState base)).visited.length =
        (crawlRun fetch base maxDepth (U.length * (maxLinkCount fetch U + 1) + 1)
          (initState base)).fetchLog.length := by
      rw [hI.vis_eq, List.length_map]
    have h2 : (crawlRun fetch base maxDepth (U.length * (maxLinkCount fetch U + 1) + 1)
        (initState base)).results.length =
        ((crawlRun fetch base maxDepth (U.length * (maxLinkCount fetch U + 1) + 1)
          (initState base)).fetchLog.filter (fun e => e.ok)).length := by
      have hc := congrArg List.length hI.res_eq
      rwa [List.length_map, List.length_map] at hc
    rw [h1, h2]
    exact (length_filter_split (fun e : FetchEvent => e.ok) _).symm

/-- C2 witness: a one-page universe with a linkless fetcher. -/
theorem C2_witness :
    ∃ s, scrape fetchNoLinks "http://a.com/x" 0
        ((["http://a.com/x"] : List String).length *
          (maxLinkCount fetchNoLinks ["http://a.com/x"] + 1) + 1) = Except.ok s ∧
      s.queue = [] ∧ (∀ k, crawlRun fetchNoLinks "http://a.com/x" 0 k s = s) ∧
      s.visited.length = s.results.length +
        (s.fetchLog.filter (fun e => !e.ok)).length :=
  C2_terminates_with_accounting fetchNoLinks "http://a.com/x" 0 ["http://a.com/x"]
    "http://a.com/x" rfl (by decide) (by decide)

/-- C3: under the same finiteness hypotheses the crawl still returns (the
frontier drains), and a fetch failure neither aborts the crawl nor leaves
an entry in the result map: every successfully fetched URL is a key of the
returned map and every failed fetch's URL is absent from it. -/
theorem C3_partial_failure_isolated (fetch : Fetcher) (start : String) (maxDepth : Int)
    (U : List String) (base : String)
    (hb : normalize_url start = Except.ok base)
    (hbase : base ∈ U)
    (hcl : ∀ u ∈ U, ∀ v ∈ linkCandidates base u (linksOf (fetch u)), v ∈ U) :
    ∃ s, scrape fetch start maxDepth (U.length * (maxLinkCount fetch U + 1) + 1) =
        Except.ok s ∧
      s.queue = [] ∧
      ∀ e ∈ s.fetchLog,
        (e.ok = true → e.url ∈ s.results.map Prod.fst) ∧
        (e.ok = false → e.url ∉ s.results.map Prod.fst) := by
  have hempty := crawlRun_reaches_empty fetch base maxDepth U hcl
    (U.length * (maxLinkCount fetch U + 1) + 1) (initState base)
    (queueInU_init U base hbase)
    (by
      unfold crawlMeasure initState
      exact Nat.add_le_add_right
        (Nat.mul_le_mul_right _ (List.length_filter_le _ _)) 1)
  have hI := crawlInv_run fetch base maxDepth
    (U.length * (maxLinkCount fetch U + 1) + 1) (initState base)
    (crawlInv_init maxDepth base)
  refine ⟨crawlRun fetch base maxDepth (U.length * (maxLinkCount fetch U + 1) + 1)
    (initState base), ?_, hempty, ?_⟩
  · unfold scrape
    rw [hb]
  · intro e he
    constructor
    · intro hok
      rw [hI.res_eq]
      exact List.mem_map.mpr ⟨e, List.mem_filter.mpr ⟨he, hok⟩, rfl⟩
    · intro hnok hmem
      rw [hI.res_eq] at hmem
      obtain ⟨e', he', hurl⟩ := List.mem_map.mp hmem
      have he'l := (List.mem_filter.mp he').1
      have he'ok := (List.mem_filter.mp he').2
      have hnd : ((crawlRun fetch base maxDepth
          (U.length * (maxLinkCount fetch U + 1) + 1)
          (initState base)).fetchLog.map FetchEvent.url).Nodup :=
        hI.vis_eq ▸ hI.vis_nodup
      have heq := List.inj_on_of_nodup_map hnd he'l he hurl
      rw [heq, hnok] at he'ok
      cases he'ok

/-- C3 witness: the mixed-outcome graph, in which one linked page's fetch
raises, one returns a failure result, and one succeeds. -/
theorem C3_witness :
    ∃ s, scrape fetcherMixed "http://m.org/r" 1
        ((["http://m.org/r", "http://m.org/r/a", "http://m.org/r/b",
            "http://m.org/r/c"] : List String).length *
          (maxLinkCount fetcherMixed ["http://m.org/r", "http://m.org/r/a",
            "http://m.org/r/b", "http://m.org/r/c"] + 1) + 1) = Except.ok s ∧
      s.queue = [] ∧
      ∀ e ∈ s.fetchLog,
        (e.ok = true → e.url ∈ s.results.map Prod.fst) ∧
        (e.ok = false → e.url ∉ s.results.map Prod.fst) :=
  C3_partial_failure_isolated fetcherMixed "http://m.org/r" 1
    ["http://m.org/r", "http://m.org/r/a", "http://m.org/r/b", "http://m.org/r/c"]
    "http://m.org/r" rfl (by decide) (by decide)

/-- `qpartOf` of an empty query is empty. -/
theorem qpartOf_nil : qpartOf ([] : List Char) = [] := by
  unfold qpartOf
  rw [if_neg (fun hx : ([] : List Char) ≠ [] => hx rfl)]

/-- `qpartOf` of a nonempty query prepends `?`. -/
theorem qpartOf_pos (Q : List Char) (h : Q ≠ []) : qpartOf Q = '?' :: Q := by
  unfold qpartOf
  rw [if_pos h]

/-- The optional query part is empty or `?`-headed. -/
theorem qpartOf_shape (Q : List Char) : qpartOf Q = [] ∨ ∃ t, qpartOf Q = '?' :: t := by
  by_cases hQ : Q = []
  · subst hQ
    exact Or.inl qpartOf_nil
  · exact Or.inr ⟨Q, qpartOf_pos Q hQ⟩

/-- A character of the optional query part is `?` or from the query. -/
theorem mem_qpartOf (ch : Char) (Q : List Char) (h : ch ∈ qpartOf Q) :
    ch = '?' ∨ ch ∈ Q := by
  revert h
  unfold qpartOf
  split
  · intro h
    rcases List.mem_cons.mp h with h | h
    · exact Or.inl h
    · exact Or.inr h
  · intro h
    cases h

/-- The query-attachment conditional of `urlunsplit`, in terms of
`qpartOf`. -/
theorem append_qpart (u Q : List Char) :
    (if Q ≠ [] then u ++ '?' :: Q else u) = u ++ qpartOf Q := by
  by_cases hQ : Q = []
  · subst hQ
    rw [if_neg (fun hx : ([] : List Char) ≠ [] => hx rfl), qpartOf_nil, List.append_nil]
  · rw [if_pos hQ, qpartOf_pos Q hQ]

/-- The fragment split followed by the query split: once the netloc phase
has produced a clean path remainder followed by an optional query part,
the remaining phases of `urlsplit` recover the three components exactly. -/
theorem urlsplitRest_ok (sc : String) (x nl r Q : List Char)
    (hstep : splitNetloc x = Except.ok (nl, r ++ qpartOf Q))
    (hrc : ∀ ch ∈ r, ch ≠ '?' ∧ ch ≠ '#')
    (hQc : ∀ ch ∈ Q, ch ≠ '#') :
    urlsplitRest sc x =
      Except.ok ⟨sc, String.mk nl, String.mk r, String.mk Q, String.mk []⟩ := by
  unfold urlsplitRest
  rw [hstep]
  dsimp only
  have hnf : '#' ∉ r ++ qpartOf Q := by
    intro hm
    rcases List.mem_append.mp hm with hm | hm
    · exact (hrc _ hm).2 rfl
    · rcases mem_qpartOf _ _ hm with hm | hm
      · exact absurd hm (by decide)
      · exact hQc _ hm rfl
  rw [splitFirst_eq_none '#' hnf]
  dsimp only
  have hnq : '?' ∉ r := fun hm => (hrc _ hm).1 rfl
  by_cases hQ : Q = []
  · subst hQ
    rw [qpartOf_nil, List.append_nil, splitFirst_eq_none '?' hnq]
  · rw [qpartOf_pos Q hQ, splitFirst_append '?' _ Q hnq]

/-- Membership through a conditional suffix attachment. -/
theorem mem_ite_tail (ch : Char) (P : Prop) [Decidable P] (u : List Char) (d : Char)
    (v : List Char) (h : ch ∈ if P then u ++ d :: v else u) :
    ch ∈ u ∨ ch = d ∨ ch ∈ v := by
  split at h
  · rcases List.mem_append.mp h with h | h
    · exact Or.inl h
    · rcases List.mem_cons.mp h with h | h
      · exact Or.inr (Or.inl h)
      · exact Or.inr (Or.inr h)
  · exact Or.inl h

/-- Membership through a conditional prefix attachment. -/
theorem mem_ite_head (ch : Char) (P : Prop) [Decidable P] (s : List Char) (d : Char)
    (v : List Char) (h : ch ∈ if P then s ++ d :: v else v) :
    ch ∈ s ∨ ch = d ∨ ch ∈ v := by
  split at h
  · rcases List.mem_append.mp h with h | h
    · exact Or.inl h
    · rcases List.mem_cons.mp h with h | h
      · exact Or.inr (Or.inl h)
      · exact Or.inr (Or.inr h)
  · exact Or.inr (Or.inr h)

/-- Every character of an `urlunsplit` reassembly comes from one of the
components or is one of the inserted separators. -/
theorem mem_urlunsplitL (ch : Char) (S N c Q f : List Char)
    (h : ch ∈ urlunsplitL S N c Q f) :
    ch ∈ S ∨ ch ∈ N ∨ ch ∈ c ∨ ch ∈ Q ∨ ch ∈ f ∨
      ch = ':' ∨ ch = '/' ∨ ch = '?' ∨ ch = '#' := by
  unfold urlunsplitL at h
  dsimp only at h
  rcases mem_ite_tail ch _ _ '#' f h with h | h | h
  · rcases mem_ite_tail ch _ _ '?' Q h with h | h | h
    · rcases mem_ite_head ch _ S ':' _ h with h | h | h
      · exact Or.inl h
      · exact Or.inr (Or.inr (Or.inr (Or.inr (Or.inr (Or.inl h)))))
      · split at h
        · rcases List.mem_append.mp h with h | h
          · rcases List.mem_cons.mp h with h | h
            · exact Or.inr (Or.inr (Or.inr (Or.inr (Or.inr (Or.inr (Or.inl h))))))
            · rcases List.mem_cons.mp h with h | h
              · exact Or.inr (Or.inr (Or.inr (Or.inr (Or.inr (Or.inr (Or.inl h))))))
              · exact Or.inr (Or.inl h)
          · split at h
            · rcases List.mem_cons.mp h with h | h
              · exact Or.inr (Or.inr (Or.inr (Or.inr (Or.inr (Or.inr (Or.inl h))))))
              · exact Or.inr (Or.inr (Or.inl h))
            · exact Or.inr (Or.inr (Or.inl h))
        · exact Or.inr (Or.inr (Or.inl h))
    · exact Or.inr (Or.inr (Or.inr (Or.inr (Or.inr (Or.inr (Or.inr (Or.inl h)))))))
    · exact Or.inr (Or.inr (Or.inr (Or.inl h)))
  · exact Or.inr (Or.inr (Or.inr (Or.inr (Or.inr (Or.inr (Or.inr (Or.inr h)))))))
  · exact Or.inr (Or.inr (Or.inr (Or.inr (Or.inl h))))

/-- The netloc phase on an assembled authority form: `//`, the clean
netloc, then a region that is empty or delimiter-headed. -/
theorem splitNetloc_auth (N u0 Q : List Char)
    (hN : ∀ ch ∈ N, ch ≠ '/' ∧ ch ≠ '?' ∧ ch ≠ '#')
    (hNb : ¬ (('[' ∈ N ∧ ']' ∉ N) ∨ (']' ∈ N ∧ '[' ∉ N)))
    (hu0 : u0 = [] ∨ listStartsWith u0 ['/'] = true) :
    splitNetloc ('/' :: '/' :: (N ++ (u0 ++ qpartOf Q))) =
      Except.ok (N, u0 ++ qpartOf Q) := by
  apply splitNetloc_double N (u0 ++ qpartOf Q) hN hNb
  rcases hu0 with rfl | hst
  · rw [List.nil_append]
    rcases qpartOf_shape Q with hq | ⟨t, hq⟩
    · exact Or.inl hq
    · exact Or.inr ⟨'?', t, hq, Or.inr (Or.inl rfl)⟩
  · obtain ⟨t, rfl⟩ := (listStartsWith_single u0).mp hst
    exact Or.inr ⟨'/', t ++ qpartOf Q, rfl, Or.inl rfl⟩

/-- Splitting the reassembly of clean components recovers the components:
the scheme and netloc come back unchanged, the path region gains the `/`
that `urlunsplit` inserts when an authority is emitted before a relative
path, and the query comes back as given with an empty fragment. -/
theorem urlsplit_unsplit (S N c Q : List Char)
    (hS : S = [] ∨ ∃ ch cs, S = ch :: cs ∧ ch.isAlpha = true ∧
      (ch :: cs).all schemeChar = true ∧ (ch :: cs).map Char.toLower = ch :: cs)
    (hN : ∀ ch ∈ N, ch ≠ '/' ∧ ch ≠ '?' ∧ ch ≠ '#' ∧ isUnsafeByte ch = false)
    (hNb : ¬ (('[' ∈ N ∧ ']' ∉ N) ∨ (']' ∈ N ∧ '[' ∉ N)))
    (hcl : ∀ ch ∈ c, ch ≠ '?' ∧ ch ≠ '#' ∧ isUnsafeByte ch = false)
    (hQc : ∀ ch ∈ Q, ch ≠ '#' ∧ isUnsafeByte ch = false)
    (hsafe : S = [] → N = [] → (schemeSafePath c ∧
      ∀ ch, c.head? = some ch → isC0OrSpace ch = false))
    (hslash2 : N = [] → listStartsWith c ['/', '/'] = false) :
    urlsplitE "" (String.mk (urlunsplitL S N c Q [])) = Except.ok
      ⟨String.mk S, String.mk N,
        String.mk (if ((decide (N ≠ []) || (decide (S ≠ []) &&
              (usesNetloc.map String.data).contains S && !listStartsWith c ['/', '/'])) = true) ∧
            ((decide (c ≠ []) && !listStartsWith c ['/']) = true)
          then '/' :: c else c),
        String.mk Q, String.mk []⟩ := by
  have hclean : ∀ ch2 ∈ urlunsplitL S N c Q [], isUnsafeByte ch2 = false := by
    intro ch2 hm
    rcases mem_urlunsplitL ch2 S N c Q [] hm with h | h | h | h | h | h | h | h | h
    · rcases hS with hSnil | ⟨ch, cs, hSeq, _, hall, _⟩
      · rw [hSnil] at h
        cases h
      · rw [hSeq] at h
        exact (schemeChar_props ch2 (List.all_eq_true.mp hall _ h)).2.2.2.2.2.1
    · exact (hN _ h).2.2.2
    · exact (hcl _ h).2.2
    · exact (hQc _ h).2
    · cases h
    · rw [h]; decide
    · rw [h]; decide
    · rw [h]; decide
    · rw [h]; decide
  by_cases hb : (decide (N ≠ []) || (decide (S ≠ []) &&
      (usesNetloc.map String.data).contains S && !listStartsWith c ['/', '/'])) = true
  · -- an authority is emitted: the region is //netloc followed by the path
    obtain ⟨u0, hu0eq, hu0shape, hu0clean, htarget⟩ :
        ∃ u0, (if (decide (c ≠ []) && !listStartsWith c ['/']) = true
            then '/' :: c else c) = u0 ∧
          (u0 = [] ∨ listStartsWith u0 ['/'] = true) ∧
          (∀ ch2 ∈ u0, ch2 ≠ '?' ∧ ch2 ≠ '#') ∧
          (if ((decide (N ≠ []) || (decide (S ≠ []) &&
                (usesNetloc.map String.data).contains S &&
                !listStartsWith c ['/', '/'])) = true) ∧
              ((decide (c ≠ []) && !listStartsWith c ['/']) = true)
            then '/' :: c else c) = u0 := by
      by_cases hins : (decide (c ≠ []) && !listStartsWith c ['/']) = true
      · refine ⟨'/' :: c, if_pos hins,
          Or.inr ((listStartsWith_single _).mpr ⟨c, rfl⟩), ?_, if_pos ⟨hb, hins⟩⟩
        intro ch2 hm
        rcases List.mem_cons.mp hm with hm | hm
        · exact ⟨by rw [hm]; decide, by rw [hm]; decide⟩
        · exact ⟨(hcl _ hm).1, (hcl _ hm).2.1⟩
      · have hc0 : c = [] ∨ listStartsWith c ['/'] = true := by
          cases hdc : decide (c ≠ []) with
          | false => exact Or.inl (not_not.mp (of_decide_eq_false hdc))
          | true =>
            cases hl : listStartsWith c ['/'] with
            | true => exact Or.inr rfl
            | false =>
              exfalso
              apply hins
              rw [hdc, hl]
              rfl
        exact ⟨c, if_neg hins, hc0, fun ch2 hm => ⟨(hcl _ hm).1, (hcl _ hm).2.1⟩,
          if_neg (fun hcon => hins hcon.2)⟩
    have hstep := splitNetloc_auth N u0 Q
      (fun ch2 hm => ⟨(hN _ hm).1, (hN _ hm).2.1, (hN _ hm).2.2.1⟩) hNb hu0shape
    rcases hS with hSnil | ⟨ch, cs, hSeq, halpha, hall, hlower⟩
    · subst hSnil
      have hu : urlunsplitL [] N c Q [] = '/' :: '/' :: (N ++ (u0 ++ qpartOf Q)) := by
        unfold urlunsplitL
        dsimp only
        rw [if_neg (fun hx : ([] : List Char) ≠ [] => hx rfl), append_qpart, if_pos hb,
          hu0eq, if_neg (fun hx : ([] : List Char) ≠ [] => hx rfl)]
        simp only [List.cons_append, List.append_assoc]
      have hhead : ∀ ch2, ('/' :: '/' :: (N ++ (u0 ++ qpartOf Q))).head? = some ch2 →
          isC0OrSpace ch2 = false := by
        intro ch2 hch2
        rw [← Option.some.inj hch2]
        decide
      have hdet : detectScheme ('/' :: '/' :: (N ++ (u0 ++ qpartOf Q))) = none := by
        apply detectScheme_no
        intro pre post hsplit
        rcases splitFirst_pre_head ':' _ pre post hsplit with hpre | hpre
        · exact Or.inl hpre
        · right; left
          intro ch2 hch2
          have h1 : pre.head? = some '/' := hpre
          rw [← Option.some.inj (h1.symm.trans hch2)]
          decide
      rw [hu]
      unfold urlsplitE
      dsimp only
      rw [clean_noop _ hhead (hu ▸ hclean), hdet]
      dsimp only
      rw [htarget]
      exact urlsplitRest_ok (String.mk []) _ N u0 Q hstep hu0clean
        (fun ch2 hm => (hQc _ hm).1)
    · subst hSeq
      have hu : urlunsplitL (ch :: cs) N c Q [] =
          (ch :: cs) ++ ':' :: '/' :: '/' :: (N ++ (u0 ++ qpartOf Q)) := by
        unfold urlunsplitL
        dsimp only
        rw [if_neg (fun hx : ([] : List Char) ≠ [] => hx rfl), append_qpart, if_pos hb,
          hu0eq, if_pos (List.cons_ne_nil ch cs)]
        simp only [List.cons_append, List.append_assoc]
      have hhead : ∀ ch2,
          ((ch :: cs) ++ ':' :: '/' :: '/' :: (N ++ (u0 ++ qpartOf Q))).head? = some ch2 →
          isC0OrSpace ch2 = false := by
        intro ch2 hch2
        rw [← Option.some.inj hch2]
        exact char_alpha_not_C0 ch halpha
      rw [hu]
      unfold urlsplitE
      dsimp only
      rw [clean_noop _ hhead (hu ▸ hclean),
        detectScheme_success ch cs _ halpha hall hlower]
      dsimp only
      rw [htarget]
      exact urlsplitRest_ok (String.mk (ch :: cs)) _ N u0 Q hstep hu0clean
        (fun ch2 hm => (hQc _ hm).1)
  · -- no authority: the region is the path itself
    have hNnil : N = [] := by
      by_contra hNe
      exact hb (by rw [decide_eq_true hNe]; rfl)
    subst hNnil
    have hstep := splitNetloc_not_double (c ++ qpartOf Q)
      (listStartsWith_pair_append_false c (qpartOf Q) (hslash2 rfl) (qpartOf_shape Q))
    have hrc : ∀ ch2 ∈ c, ch2 ≠ '?' ∧ ch2 ≠ '#' :=
      fun ch2 hm => ⟨(hcl _ hm).1, (hcl _ hm).2.1⟩
    have htarget : (if ((decide (([] : List Char) ≠ []) || (decide (S ≠ []) &&
            (usesNetloc.map String.data).contains S && !listStartsWith c ['/', '/'])) = true) ∧
          ((decide (c ≠ []) && !listStartsWith c ['/']) = true)
        then '/' :: c else c) = c := if_neg (fun hcon => hb hcon.1)
    rcases hS with hSnil | ⟨ch, cs, hSeq, halpha, hall, hlower⟩
    · subst hSnil
      have hu : urlunsplitL [] [] c Q [] = c ++ qpartOf Q := by
        unfold urlunsplitL
        dsimp only
        rw [if_neg (fun hx : ([] : List Char) ≠ [] => hx rfl), append_qpart, if_neg hb,
          if_neg (fun hx : ([] : List Char) ≠ [] => hx rfl)]
      obtain ⟨hsp, hhc⟩ := hsafe rfl rfl
      have hhead : ∀ ch2, (c ++ qpartOf Q).head? = some ch2 → isC0OrSpace ch2 = false := by
        intro ch2 hch2
        rcases c with _ | ⟨x, xs⟩
        · rw [List.nil_append] at hch2
          rcases qpartOf_shape Q with hq | ⟨t, hq⟩
          · rw [hq] at hch2
            cases hch2
          · rw [hq] at hch2
            rw [← Option.some.inj hch2]
            decide
        · have hx : ((x :: xs) ++ qpartOf Q).head? = some x := rfl
          rw [hx] at hch2
          rw [← Option.some.inj hch2]
          exact hhc x rfl
      have hdet : detectScheme (c ++ qpartOf Q) = none := by
        apply detectScheme_no
        intro pre post hsplit
        by_cases hcolon : ':' ∈ c
        · obtain ⟨a, b, hab⟩ := splitFirst_isSome ':' hcolon
          have h2 := splitFirst_append_first ':' c (qpartOf Q) a b hab
          rw [hsplit] at h2
          have hpre : pre = a := congrArg Prod.fst (Option.some.inj h2)
          unfold schemeSafePath at hsp
          rw [hab] at hsp
          dsimp only at hsp
          rw [hpre]
          exact hsp
        · rcases qpartOf_shape Q with hq | ⟨t, hq⟩
          · rw [hq, List.append_nil, splitFirst_eq_none ':' hcolon] at hsplit
            cases hsplit
          · rw [hq] at hsplit
            rcases hq2 : splitFirst ':' t with _ | ⟨a2, b2⟩
            · have hnone : ':' ∉ c ++ '?' :: t := by
                intro hm
                rcases List.mem_append.mp hm with hm | hm
                · exact hcolon hm
                · rcases List.mem_cons.mp hm with hm | hm
                  · exact absurd hm (by decide)
                  · obtain ⟨x, y, hxy⟩ := splitFirst_isSome ':' hm
                    rw [hq2] at hxy
                    cases hxy
              rw [splitFirst_eq_none ':' hnone] at hsplit
              cases hsplit
            · have hstep2 : splitFirst ':' ('?' :: t) = some ('?' :: a2, b2) := by
                unfold splitFirst
                rw [if_neg (by decide : ¬('?' = ':')), hq2]
              have h2 := splitFirst_append_some ':' c ('?' :: t) ('?' :: a2) b2 hcolon hstep2
              rw [hsplit] at h2
              have hpre : pre = c ++ '?' :: a2 := congrArg Prod.fst (Option.some.inj h2)
              right; right
              refine ⟨'?', ?_, by decide⟩
              rw [hpre]
              exact List.mem_append.mpr (Or.inr (List.mem_cons_self _ _))
      rw [hu]
      unfold urlsplitE
      dsimp only
      rw [clean_noop _ hhead (hu ▸ hclean), hdet]
      dsimp only
      rw [htarget]
      exact urlsplitRest_ok (String.mk []) _ [] c Q hstep hrc
        (fun ch2 hm => (hQc _ hm).1)
    · subst hSeq
      have hu : urlunsplitL (ch :: cs) [] c Q [] =
          (ch :: cs) ++ ':' :: (c ++ qpartOf Q) := by
        unfold urlunsplitL
        dsimp only
        rw [if_neg (fun hx : ([] : List Char) ≠ [] => hx rfl), append_qpart, if_neg hb,
          if_pos (List.cons_ne_nil ch cs)]
        simp only [List.cons_append, List.append_assoc]
      have hhead : ∀ ch2, ((ch :: cs) ++ ':' :: (c ++ qpartOf Q)).head? = some ch2 →
          isC0OrSpace ch2 = false := by
        intro ch2 hch2
        rw [← Option.some.inj hch2]
        exact char_alpha_not_C0 ch halpha
      rw [hu]
      unfold urlsplitE
      dsimp only
      rw [clean_noop _ hhead (hu ▸ hclean),
        detectScheme_success ch cs _ halpha hall hlower]
      dsimp only
      rw [htarget]
      exact urlsplitRest_ok (String.mk (ch :: cs)) _ [] c Q hstep hrc
        (fun ch2 hm => (hQc _ hm).1)

/-- A scheme-safe path stays scheme-safe after `;params` is appended: the
prefix before the first colon either is the path's own colon prefix, or
contains the `;`, which is outside the scheme alphabet. -/
theorem schemeSafePath_append_semi (X Y : List Char) (h : schemeSafePath X) :
    schemeSafePath (X ++ ';' :: Y) := by
  unfold schemeSafePath
  rcases hs : splitFirst ':' (X ++ ';' :: Y) with _ | ⟨pre, post⟩
  · trivial
  · dsimp only
    by_cases hcolon : ':' ∈ X
    · obtain ⟨a, b, hab⟩ := splitFirst_isSome ':' hcolon
      have h2 := splitFirst_append_first ':' X (';' :: Y) a b hab
      rw [hs] at h2
      have hpre : pre = a := congrArg Prod.fst (Option.some.inj h2)
      unfold schemeSafePath at h
      rw [hab] at h
      dsimp only at h
      rw [hpre]
      exact h
    · rcases hy : splitFirst ':' (';' :: Y) with _ | ⟨a2, b2⟩
      · have hno : ':' ∉ X ++ ';' :: Y := by
          intro hm
          rcases List.mem_append.mp hm with hm | hm
          · exact hcolon hm
          · obtain ⟨x2, y2, hxy⟩ := splitFirst_isSome ':' hm
            rw [hy] at hxy
            cases hxy
        rw [splitFirst_eq_none ':' hno] at hs
        cases hs
      · have h2 := splitFirst_append_some ':' X (';' :: Y) a2 b2 hcolon hy
        rw [hs] at h2
        have hpre : pre = X ++ a2 := congrArg Prod.fst (Option.some.inj h2)
        right; right
        obtain ⟨hdec, _⟩ := splitFirst_eq_some ':' hy
        rcases a2 with _ | ⟨a0, arest⟩
        · rw [List.nil_append] at hdec
          injection hdec with h1 _
          exact absurd h1 (by decide)
        · injection hdec with h1 _
          refine ⟨';', ?_, by decide⟩
          rw [hpre, ← h1]
          exact List.mem_append.mpr (Or.inr (List.mem_cons_self _ _))

/-- Appending `;params` cannot create a `//` prefix. -/
theorem listStartsWith_pair_append_semi (X Y : List Char)
    (h : listStartsWith X ['/', '/'] = false) :
    listStartsWith (X ++ ';' :: Y) ['/', '/'] = false := by
  cases hc : listStartsWith (X ++ ';' :: Y) ['/', '/']
  · rfl
  · exfalso
    obtain ⟨t, ht⟩ := (listStartsWith_pair _).mp hc
    rcases X with _ | ⟨x1, X1⟩
    · rw [List.nil_append] at ht
      injection ht with h1 _
      exact absurd h1 (by decide)
    · rcases X1 with _ | ⟨x2, X2⟩
      · rw [List.cons_append, List.nil_append] at ht
        injection ht with h1 h2
        injection h2 with h2 _
        exact absurd h2 (by decide)
      · rw [List.cons_append, List.cons_append] at ht
        injection ht with h1 h2
        injection h2 with h2 _
        have hX : listStartsWith (x1 :: x2 :: X2) ['/', '/'] = true := by
          rw [h1, h2]
          exact (listStartsWith_pair _).mpr ⟨X2, rfl⟩
        rw [hX] at h
        cases h

/-- The path region computed by the reassembly-splitting theorem is
`regionAfterNetloc`. -/
theorem region_eq (p : UrlParse) :
    (if ((decide (p.netloc.data ≠ []) || (decide (p.scheme.data ≠ []) &&
          (usesNetloc.map String.data).contains p.scheme.data &&
          !listStartsWith (combinedL p) ['/', '/'])) = true) ∧
        ((decide (combinedL p ≠ []) && !listStartsWith (combinedL p) ['/']) = true)
      then '/' :: combinedL p else combinedL p) = regionAfterNetloc p := by
  unfold regionAfterNetloc unsplitB
  by_cases h2 : (decide (combinedL p ≠ []) && !listStartsWith (combinedL p) ['/']) = true
  · rcases band_elim h2 with ⟨h2a, h2b⟩
    have hc1 : combinedL p ≠ [] := of_decide_eq_true h2a
    have hc2 : listStartsWith (combinedL p) ['/'] = false := by
      cases hl : listStartsWith (combinedL p) ['/']
      · rfl
      · rw [hl] at h2b
        exact absurd h2b (by decide)
    by_cases h1 : (decide (p.netloc.data ≠ []) || (decide (p.scheme.data ≠ []) &&
        (usesNetloc.map String.data).contains p.scheme.data &&
        !listStartsWith (combinedL p) ['/', '/'])) = true
    · rw [if_pos ⟨h1, h2⟩, if_pos ⟨h1, hc1, hc2⟩]
    · rw [if_neg (fun hcon => h1 hcon.1), if_neg (fun hcon => h1 hcon.1)]
  · rw [if_neg (fun hcon => h2 hcon.2),
      if_neg (fun hcon => h2 (by rw [decide_eq_true hcon.2.1, hcon.2.2]; rfl))]

/-- Reparsing the reassembly of a normalized tuple: `urlparse` applied to
`urlunparse p` lands exactly on `reparsed p`. -/
theorem urlparse_unparse (p : UrlParse) (hI : NormInv p) :
    urlparseE "" (urlunparse p) = Except.ok (reparsed p) := by
  have hcomb : ∀ ch ∈ combinedL p, ch ≠ '?' ∧ ch ≠ '#' ∧ isUnsafeByte ch = false := by
    intro ch hm
    unfold combinedL at hm
    split at hm
    · rcases List.mem_append.mp hm with hm | hm
      · exact hI.path_clean _ hm
      · rcases List.mem_cons.mp hm with hm | hm
        · exact ⟨by rw [hm]; decide, by rw [hm]; decide, by rw [hm]; decide⟩
        · have h3 := hI.params_clean _ hm
          exact ⟨h3.2.1, h3.2.2.1, h3.2.2.2⟩
    · exact hI.path_clean _ hm
  have hsafe : p.scheme.data = [] → p.netloc.data = [] →
      (schemeSafePath (combinedL p) ∧
        ∀ ch, (combinedL p).head? = some ch → isC0OrSpace ch = false) := by
    intro hs hn
    obtain ⟨hsp, hhc⟩ := hI.no_scheme_safe hs hn
    constructor
    · unfold combinedL
      split
      · exact schemeSafePath_append_semi _ _ hsp
      · exact hsp
    · unfold combinedL
      split
      · intro ch hch
        rcases hp : p.path.data with _ | ⟨x, xs⟩
        · rw [hp, List.nil_append] at hch
          rw [← Option.some.inj hch]
          decide
        · rw [hp] at hch
          rw [← Option.some.inj hch]
          exact hhc x (by rw [hp]; rfl)
      · exact hhc
  have hss : p.netloc.data = [] → listStartsWith (combinedL p) ['/', '/'] = false := by
    intro hn
    unfold combinedL
    split
    · exact listStartsWith_pair_append_semi _ _ (hI.path_noslashslash hn)
    · exact hI.path_noslashslash hn
  have hsplit2 := urlsplit_unsplit p.scheme.data p.netloc.data (combinedL p) p.query.data
    hI.scheme_ok hI.netloc_clean hI.netloc_brackets hcomb hI.query_clean hsafe hss
  rw [region_eq p] at hsplit2
  simp only [string_mk_data] at hsplit2
  have hA : urlunparse p = String.mk
      (urlunsplitL p.scheme.data p.netloc.data (combinedL p) p.query.data []) := by
    unfold urlunparse
    rw [hI.frag_empty]
  unfold urlparseE
  rw [hA, hsplit2]
  dsimp only
  unfold reparsed reparsedPP
  by_cases hcond : (usesParams.contains p.scheme && ';' ∈ regionAfterNetloc p) = true
  · rw [if_pos hcond, if_pos hcond]
  · rw [if_neg hcond, if_neg hcond]

/-- The reparsed path/params pair in closed form: the path region with the
parameters split back off is the original path (with the inserted `/` when
one was added), and the parameters come back exactly. -/
theorem reparsedPP_spec (p : UrlParse) (hI : NormInv p) :
    reparsedPP p = (if unsplitB p = true ∧ combinedL p ≠ [] ∧
        listStartsWith (combinedL p) ['/'] = false
      then '/' :: p.path.data else p.path.data, p.params.data) := by
  by_cases hparams : p.params = ""
  · have hcombeq : combinedL p = p.path.data := by
      unfold combinedL
      rw [if_neg (fun hx => hx hparams)]
    have hnosemi : ';' ∉ regionAfterNetloc p := by
      unfold regionAfterNetloc
      split
      · intro hm
        rcases List.mem_cons.mp hm with hm | hm
        · exact absurd hm (by decide)
        · rw [hcombeq] at hm
          exact hI.path_nosemi hm
      · intro hm
        rw [hcombeq] at hm
        exact hI.path_nosemi hm
    unfold reparsedPP
    rw [if_neg (fun hc => hnosemi (of_decide_eq_true (band_elim hc).2))]
    unfold regionAfterNetloc
    rw [hcombeq, hparams]
  · have hpne : p.params.data ≠ [] := by
      intro hx
      apply hparams
      have h2 := congrArg String.mk hx
      rw [string_mk_data] at h2
      exact h2
    have hcombeq : combinedL p = p.path.data ++ ';' :: p.params.data := by
      unfold combinedL
      rw [if_pos hparams]
    have hcontains : usesParams.contains p.scheme = true := hI.params_scheme hpne
    have hregion : regionAfterNetloc p =
        (if unsplitB p = true ∧ combinedL p ≠ [] ∧
            listStartsWith (combinedL p) ['/'] = false
          then '/' :: p.path.data else p.path.data) ++ ';' :: p.params.data := by
      unfold regionAfterNetloc
      by_cases hcins : unsplitB p = true ∧ combinedL p ≠ [] ∧
          listStartsWith (combinedL p) ['/'] = false
      · rw [if_pos hcins, if_pos hcins, hcombeq, List.cons_append]
      · rw [if_neg hcins, if_neg hcins, hcombeq]
    have hsemiX : ';' ∉ (if unsplitB p = true ∧ combinedL p ≠ [] ∧
        listStartsWith (combinedL p) ['/'] = false
      then '/' :: p.path.data else p.path.data) := by
      intro hm
      revert hm
      split
      · intro hm
        rcases List.mem_cons.mp hm with hm | hm
        · exact absurd hm (by decide)
        · exact hI.path_nosemi hm
      · exact hI.path_nosemi
    have hslashR : '/' ∉ p.params.data := fun hm => (hI.params_clean _ hm).1 rfl
    have hsplitP := splitParams_sep _ _ hsemiX hslashR
    have hcondT : (usesParams.contains p.scheme &&
        decide (';' ∈ regionAfterNetloc p)) = true := by
      rw [hcontains, decide_eq_true (by
        rw [hregion]
        exact List.mem_append.mpr (Or.inr (List.mem_cons_self _ _)))]
      rfl
    unfold reparsedPP
    rw [if_pos hcondT, hregion, hsplitP]

/-- `normalize_url`'s component transformation is the identity on a
reparsed normalized tuple: the fragment is already empty and the path
cannot be stripped further. -/
theorem normParts_reparsed (p : UrlParse) (hI : NormInv p) :
    normParts (reparsed p) = reparsed p := by
  have hPP := reparsedPP_spec p hI
  have hfix : (endsWithSlash (String.mk (reparsedPP p).1) &&
      decide (1 < (String.mk (reparsedPP p).1).length)) = false := by
    rw [hPP]
    dsimp only
    by_cases hcins : unsplitB p = true ∧ combinedL p ≠ [] ∧
        listStartsWith (combinedL p) ['/'] = false
    · rw [if_pos hcins]
      rcases hp : p.path.data with _ | ⟨x, xs⟩
      · decide
      · have hlast : (x :: xs).getLast? ≠ some '/' := by
          intro hl
          rcases xs with _ | ⟨y, ys⟩
          · rw [List.getLast?_singleton] at hl
            have hx := Option.some.inj hl
            have hstart : listStartsWith (combinedL p) ['/'] = true := by
              unfold combinedL
              split
              · rw [hp, hx]
                exact (listStartsWith_single _).mpr ⟨_, rfl⟩
              · rw [hp, hx]
                exact (listStartsWith_single _).mpr ⟨_, rfl⟩
            rw [hcins.2.2] at hstart
            cases hstart
          · apply hI.path_nostrip
            constructor
            · rw [hp]
              exact hl
            · rw [hp, List.length_cons, List.length_cons]
              omega
        have hgl : ('/' :: x :: xs).getLast? = (x :: xs).getLast? :=
          List.getLast?_cons_cons
        unfold endsWithSlash
        dsimp only
        rw [hgl, decide_eq_false hlast]
        rfl
    · rw [if_neg hcins]
      by_cases hA : p.path.data.getLast? = some '/'
      · have hlen : ¬(1 < p.path.data.length) := fun hlt => hI.path_nostrip ⟨hA, hlt⟩
        have h2 : decide (1 < (String.mk p.path.data).length) = false :=
          decide_eq_false hlen
        rw [h2, Bool.and_false]
      · have h1 : endsWithSlash (String.mk p.path.data) = false := by
          unfold endsWithSlash
          exact decide_eq_false hA
        rw [h1, Bool.false_and]
  unfold normParts reparsed
  dsimp only
  rw [hfix, if_neg (by decide : ¬(false = true))]

/-- Prepending the authority-mandated `/` to a nonempty relative path does
not change the reassembly: `urlunsplit` would have inserted the same `/`. -/
theorem urlunsplitL_slash (S N c Q F : List Char)
    (hc : listStartsWith c ['/'] = false)
    (hb : (decide (N ≠ []) || (decide (S ≠ []) &&
      (usesNetloc.map String.data).contains S && !listStartsWith c ['/', '/'])) = true)
    (hcne : c ≠ []) :
    urlunsplitL S N ('/' :: c) Q F = urlunsplitL S N c Q F := by
  unfold urlunsplitL
  dsimp only
  have hpair : listStartsWith ('/' :: c) ['/', '/'] = false := by
    cases hl : listStartsWith ('/' :: c) ['/', '/']
    · rfl
    · exfalso
      obtain ⟨t, ht⟩ := (listStartsWith_pair _).mp hl
      injection ht with _ h2
      have hcs : listStartsWith c ['/'] = true := by
        rw [h2]
        exact (listStartsWith_single _).mpr ⟨t, rfl⟩
      rw [hcs] at hc
      cases hc
  have hb2 : (decide (N ≠ []) || (decide (S ≠ []) &&
      (usesNetloc.map String.data).contains S &&
      !listStartsWith ('/' :: c) ['/', '/'])) = true := by
    rcases bor_elim hb with h | h
    · rw [h]
      rfl
    · rcases band_elim h with ⟨h1, _⟩
      rw [h1, hpair, show (true && !false : Bool) = true from rfl, Bool.or_true]
  have hins1 : (decide ('/' :: c ≠ []) && !listStartsWith ('/' :: c) ['/']) = false := by
    have h1 : listStartsWith ('/' :: c) ['/'] = true :=
      (listStartsWith_single _).mpr ⟨c, rfl⟩
    rw [h1, Bool.not_true, Bool.and_false]
  have hins2 : (decide (c ≠ []) && !listStartsWith c ['/']) = true := by
    rw [decide_eq_true hcne, hc]
    rfl
  rw [if_pos hb2, if_pos hb, hins1, if_neg (by decide : ¬(false = true)),
    hins2, if_pos (rfl : true = true)]

/-- Reassembling the reparsed tuple gives back the original reassembly. -/
theorem unparse_reparsed (p : UrlParse) (hI : NormInv p) :
    urlunparse (reparsed p) = urlunparse p := by
  have hPP := reparsedPP_spec p hI
  have hparams2 : (reparsed p).params = p.params := by
    unfold reparsed
    dsimp only
    rw [hPP]
  have hpath2 : (reparsed p).path.data =
      (if unsplitB p = true ∧ combinedL p ≠ [] ∧
          listStartsWith (combinedL p) ['/'] = false
        then '/' :: p.path.data else p.path.data) := by
    unfold reparsed
    dsimp only
    rw [hPP]
  have hcr : combinedL (reparsed p) = regionAfterNetloc p := by
    have h1 : combinedL (reparsed p) = (if p.params ≠ ""
        then (reparsed p).path.data ++ ';' :: p.params.data
        else (reparsed p).path.data) := by
      unfold combinedL
      rw [hparams2]
    rw [h1, hpath2]
    unfold regionAfterNetloc
    by_cases hIns : unsplitB p = true ∧ combinedL p ≠ [] ∧
        listStartsWith (combinedL p) ['/'] = false
    · rw [if_pos hIns, if_pos hIns]
      unfold combinedL
      by_cases hpar : p.params ≠ ""
      · rw [if_pos hpar, if_pos hpar, List.cons_append]
      · rw [if_neg hpar, if_neg hpar]
    · rw [if_neg hIns, if_neg hIns]
      unfold combinedL
      by_cases hpar : p.params ≠ ""
      · rw [if_pos hpar]
      · rw [if_neg hpar]
  have hs2 : (reparsed p).scheme = p.scheme := rfl
  have hn2 : (reparsed p).netloc = p.netloc := rfl
  have hq2 : (reparsed p).query = p.query := rfl
  have hf2 : (reparsed p).fragment = p.fragment := by
    unfold reparsed
    rw [hI.frag_empty]
  unfold urlunparse
  rw [hcr, hs2, hn2, hq2, hf2]
  unfold regionAfterNetloc
  by_cases hIns : unsplitB p = true ∧ combinedL p ≠ [] ∧
      listStartsWith (combinedL p) ['/'] = false
  · rw [if_pos hIns]
    obtain ⟨hBt, hcne, hcns⟩ := hIns
    unfold unsplitB at hBt
    rw [urlunsplitL_slash p.scheme.data p.netloc.data (combinedL p) p.query.data
      p.fragment.data hcns hBt hcne]
  · rw [if_neg hIns]

/-- `normalize_url` is the identity on the reassembly of any tuple
satisfying the normalization invariant. -/
theorem normalize_fixed (p : UrlParse) (hI : NormInv p) :
    normalize_url (urlunparse p) = Except.ok (urlunparse p) := by
  unfold normalize_url
  rw [urlparse_unparse p hI]
  dsimp only
  rw [normParts_reparsed p hI, unparse_reparsed p hI]

/-- A false conjunction has a false conjunct. -/
theorem band_false_elim {a b : Bool} (h : (a && b) = false) : a = false ∨ b = false := by
  cases a
  · exact Or.inl rfl
  · cases b
    · exact Or.inr rfl
    · cases h

/-- A failed `all` exhibits a failing element. -/
theorem all_false_mem {α} (p : α → Bool) (l : List α) (h : l.all p = false) :
    ∃ x ∈ l, p x = false := by
  by_contra hcon
  push_neg at hcon
  have : l.all p = true := List.all_eq_true.mpr (fun x hx => by
    cases hp : p x
    · exact absurd hp (hcon x hx)
    · rfl)
  rw [this] at h
  cases h

/-- The head surviving `dropWhile` fails the predicate. -/
theorem dropWhile_cons_head {α} (p : α → Bool) :
    ∀ (l : List α) a as, l.dropWhile p = a :: as → p a = false := by
  intro l
  induction l with
  | nil =>
    intro a as h
    cases h
  | cons x xs ih =>
    intro a as h
    rw [List.dropWhile_cons] at h
    split at h
    · exact ih a as h
    · next hpx =>
      injection h with h1 _
      rw [← h1]
      cases hp : p x
      · rfl
      · exact absurd hp hpx

/-- Members of the cleaned input are not unsafe bytes. -/
theorem clean_unsafe (u : List Char) :
    ∀ ch ∈ (u.dropWhile isC0OrSpace).filter (fun c => !isUnsafeByte c),
      isUnsafeByte ch = false := by
  intro ch hm
  have h2 := (List.mem_filter.mp hm).2
  cases hu : isUnsafeByte ch
  · rfl
  · rw [hu] at h2
    cases h2

/-- The head of the cleaned input is not a C0 control or space. -/
theorem clean_head (u : List Char) :
    ∀ ch, ((u.dropWhile isC0OrSpace).filter (fun c => !isUnsafeByte c)).head? = some ch →
      isC0OrSpace ch = false := by
  intro ch hch
  cases hd : u.dropWhile isC0OrSpace with
  | nil =>
    rw [hd, List.filter_nil] at hch
    exact Option.noConfusion hch
  | cons a as =>
    have hpa : isC0OrSpace a = false := dropWhile_cons_head isC0OrSpace u a as hd
    have hua : isUnsafeByte a = false := by
      cases hu : isUnsafeByte a
      · rfl
      · have h2 := isC0OrSpace_of_unsafe a hu
        rw [hpa] at h2
        cases h2
    rw [hd, List.filter_cons_of_pos (by rw [hua]; rfl)] at hch
    rw [← Option.some.inj hch]
    exact hpa

/-- The head of a nonempty list survives appending. -/
theorem head_of_append (X T : List Char) (hne : X ≠ []) :
    (X ++ T).head? = X.head? := by
  cases X
  · exact absurd rfl hne
  · rfl

/-- A `//` prefix survives appending. -/
theorem lsw_pair_append (X T : List Char) (h : listStartsWith X ['/', '/'] = true) :
    listStartsWith (X ++ T) ['/', '/'] = true := by
  obtain ⟨t, rfl⟩ := (listStartsWith_pair X).mp h
  exact (listStartsWith_pair _).mpr ⟨t ++ T, rfl⟩

/-- Scheme-safety restricts to prefixes. -/
theorem schemeSafePath_prefix (X T : List Char) (h : schemeSafePath (X ++ T)) :
    schemeSafePath X := by
  unfold schemeSafePath
  rcases hs : splitFirst ':' X with _ | ⟨pre, post⟩
  · trivial
  · dsimp only
    have h2 := splitFirst_append_first ':' X T pre post hs
    unfold schemeSafePath at h
    rw [h2] at h
    dsimp only at h
    exact h

/-- Inversion of `splitLast`: the found delimiter is the last one. -/
theorem splitLast_eq_some (d : Char) (l a b : List Char)
    (h : splitLast d l = some (a, b)) : l = a ++ d :: b ∧ d ∉ b := by
  unfold splitLast at h
  rcases hs : splitFirst d l.reverse with _ | ⟨rb, ra⟩
  · rw [hs] at h
    cases h
  · rw [hs] at h
    dsimp only at h
    obtain ⟨hdec, hnb⟩ := splitFirst_eq_some d hs
    injection h with h1
    injection h1 with ha hb
    constructor
    · have h3 := congrArg List.reverse hdec
      rw [List.reverse_reverse, List.reverse_append, List.reverse_cons,
        List.append_assoc, List.singleton_append] at h3
      rw [h3, ha, hb]
    · rw [← hb]
      intro hm
      exact hnb (List.mem_reverse.mp hm)

/-- Inversion of a failed `splitLast`: the delimiter is absent. -/
theorem splitLast_eq_none (d : Char) (l : List Char)
    (h : splitLast d l = none) : d ∉ l := by
  intro hm
  obtain ⟨a, b, hab⟩ := splitFirst_isSome d (List.mem_reverse.mpr hm)
  unfold splitLast at h
  rw [hab] at h
  cases h

/-- Facts about one delimiter-splitting phase of `urlsplit`: the pair it
computes is a prefix/suffix decomposition whose first part is free of the
delimiter and keeps the head of the input. -/
theorem splitFirstD_facts (d : Char) (l : List Char) :
    ∃ A B, (match splitFirst d l with
        | none => (l, ([] : List Char))
        | some (a, b) => (a, b)) = (A, B) ∧
      d ∉ A ∧ (∀ ch ∈ A, ch ∈ l) ∧ (∀ ch ∈ B, ch ∈ l) ∧
      (A = [] ∨ A.head? = l.head?) ∧
      (∃ T, l = A ++ T ∧ (T = [] ∨ ∃ t, T = d :: t)) := by
  rcases hs : splitFirst d l with _ | ⟨a, b⟩
  · refine ⟨l, [], rfl, ?_, fun ch hm => hm, fun ch hm => absurd hm (List.not_mem_nil ch),
      Or.inr rfl, ⟨[], (List.append_nil l).symm, Or.inl rfl⟩⟩
    intro hm
    obtain ⟨x, y, hxy⟩ := splitFirst_isSome d hm
    rw [hs] at hxy
    cases hxy
  · obtain ⟨hdec, hna⟩ := splitFirst_eq_some d hs
    refine ⟨a, b, rfl, hna, ?_, ?_, ?_, ⟨d :: b, hdec, Or.inr ⟨b, rfl⟩⟩⟩
    · intro ch hm
      rw [hdec]
      exact List.mem_append.mpr (Or.inl hm)
    · intro ch hm
      rw [hdec]
      exact List.mem_append.mpr (Or.inr (List.mem_cons_of_mem d hm))
    · rcases a with _ | ⟨a0, ar⟩
      · exact Or.inl rfl
      · right
        rw [hdec]
        rfl

/-- Inversion of a successful scheme detection. -/
theorem detectScheme_inv (l sch rest : List Char)
    (h : detectScheme l = some (sch, rest)) :
    (∃ c cs, sch = (c :: cs).map Char.toLower ∧ c.isAlpha = true ∧
      (c :: cs).all schemeChar = true) ∧ ∀ ch ∈ rest, ch ∈ l := by
  unfold detectScheme at h
  rcases hs : splitFirst ':' l with _ | ⟨pre, post⟩
  · rw [hs] at h
    cases h
  · rw [hs] at h
    obtain ⟨hdec, _⟩ := splitFirst_eq_some ':' hs
    rcases pre with _ | ⟨c, cs⟩
    · cases h
    · dsimp only at h
      split at h
      · next hcond =>
        rcases band_elim hcond with ⟨h1, h2⟩
        injection h with h3
        injection h3 with h4 h5
        refine ⟨⟨c, cs, h4.symm, h1, h2⟩, ?_⟩
        intro ch hm
        rw [hdec]
        exact List.mem_append.mpr (Or.inr (List.mem_cons_of_mem ':' (h5 ▸ hm)))
      · cases h

/-- Inversion of a failed scheme detection: any colon prefix is not a
valid scheme. -/
theorem detectScheme_none_inv (l : List Char) (h : detectScheme l = none) :
    ∀ pre post, splitFirst ':' l = some (pre, post) →
      pre = [] ∨ (∀ ch, pre.head? = some ch → ch.isAlpha = false) ∨
        ∃ ch ∈ pre, schemeChar ch = false := by
  intro pre post hs
  unfold detectScheme at h
  rw [hs] at h
  rcases pre with _ | ⟨c, cs⟩
  · exact Or.inl rfl
  · dsimp only at h
    split at h
    · cases h
    · next hcond =>
      have hfalse : (c.isAlpha && (c :: cs).all schemeChar) = false := by
        cases hb : (c.isAlpha && (c :: cs).all schemeChar)
        · rfl
        · exact absurd hb hcond
      rcases band_false_elim hfalse with h1 | h1
      · right; left
        intro ch hch
        rw [← Option.some.inj hch]
        exact h1
      · right; right
        obtain ⟨x, hx, hpx⟩ := all_false_mem schemeChar (c :: cs) h1
        exact ⟨x, hx, hpx⟩

/-- Inversion of the netloc phase: the netloc is delimiter-free and
bracket-balanced, everything comes from the input, and the remainder
either is the whole input (no authority) or starts with a delimiter. -/
theorem splitNetloc_inv (l nl l1 : List Char)
    (h : splitNetloc l = Except.ok (nl, l1)) :
    (∀ ch ∈ nl, ch ≠ '/' ∧ ch ≠ '?' ∧ ch ≠ '#') ∧
    (∀ ch ∈ nl, ch ∈ l) ∧ (∀ ch ∈ l1, ch ∈ l) ∧
    ¬ (('[' ∈ nl ∧ ']' ∉ nl) ∨ (']' ∈ nl ∧ '[' ∉ nl)) ∧
    ((nl = [] ∧ l1 = l) ∨
      (l1 = [] ∨ ∃ c2 cs, l1 = c2 :: cs ∧ (c2 = '/' ∨ c2 = '?' ∨ c2 = '#'))) := by
  unfold splitNetloc at h
  split at h
  · next rest =>
    dsimp only at h
    obtain ⟨hdec, hcl, hshape⟩ := takeUntilDelims_spec rest
    split at h
    · cases h
    · next hbr =>
      injection h with h2
      injection h2 with hnl hl1
      subst hnl
      subst hl1
      refine ⟨hcl, ?_, ?_, ?_, Or.inr hshape⟩
      · intro ch hm
        right; right
        rw [hdec]
        exact List.mem_append.mpr (Or.inl hm)
      · intro ch hm
        right; right
        rw [hdec]
        exact List.mem_append.mpr (Or.inr hm)
      · intro hcon
        apply hbr
        rcases hcon with ⟨h1, h2⟩ | ⟨h1, h2⟩
        · rw [decide_eq_true h1, decide_eq_true h2]
          rfl
        · rw [decide_eq_true h1, decide_eq_true h2,
            show (true && true : Bool) = true from rfl, Bool.or_true]
  · injection h with h2
    injection h2 with hnl hl1
    subst hnl
    subst hl1
    exact ⟨fun ch hm => absurd hm (List.not_mem_nil ch),
      fun ch hm => absurd hm (List.not_mem_nil ch), fun ch hm => hm,
      fun hcon => by
        rcases hcon with ⟨h1, _⟩ | ⟨h1, _⟩
        · exact absurd h1 (List.not_mem_nil _)
        · exact absurd h1 (List.not_mem_nil _),
      Or.inl ⟨rfl, rfl⟩⟩

/-- Inversion of the fragment/query phases: the output components are the
delimiter-free prefix decomposition of the netloc remainder. -/
theorem urlsplitRest_inv (sc : String) (l : List Char) (s : UrlSplit)
    (h : urlsplitRest sc l = Except.ok s) :
    s.scheme = sc ∧
    ∃ nl l1, splitNetloc l = Except.ok (nl, l1) ∧ s.netloc = String.mk nl ∧
      '?' ∉ s.path.data ∧ '#' ∉ s.path.data ∧ (∀ ch ∈ s.path.data, ch ∈ l1) ∧
      '#' ∉ s.query.data ∧ (∀ ch ∈ s.query.data, ch ∈ l1) ∧
      (s.path.data = [] ∨ s.path.data.head? = l1.head?) ∧
      ∃ T, l1 = s.path.data ++ T ∧
        (T = [] ∨ (∃ t, T = '?' :: t) ∨ (∃ t, T = '#' :: t)) := by
  unfold urlsplitRest at h
  rcases hsn : splitNetloc l with e | ⟨nl, l1⟩
  · rw [hsn] at h
    cases h
  · rw [hsn] at h
    dsimp only at h
    rcases hf : splitFirst '#' l1 with _ | ⟨f1, f2⟩
    · rw [hf] at h
      dsimp only at h
      have hnf1 : '#' ∉ l1 := by
        intro hm
        obtain ⟨x, y, hxy⟩ := splitFirst_isSome '#' hm
        rw [hf] at hxy
        cases hxy
      rcases hq : splitFirst '?' l1 with _ | ⟨q1, q2⟩
      · rw [hq] at h
        dsimp only at h
        have h2 := Except.ok.inj h
        subst h2
        have hnq1 : '?' ∉ l1 := by
          intro hm
          obtain ⟨x, y, hxy⟩ := splitFirst_isSome '?' hm
          rw [hq] at hxy
          cases hxy
        exact ⟨rfl, nl, l1, rfl, rfl, hnq1, hnf1, fun ch hm => hm,
          List.not_mem_nil '#', fun ch hm => absurd hm (List.not_mem_nil ch),
          Or.inr rfl, [], (List.append_nil l1).symm, Or.inl rfl⟩
      · rw [hq] at h
        dsimp only at h
        have h2 := Except.ok.inj h
        subst h2
        obtain ⟨hdec, hnq⟩ := splitFirst_eq_some '?' hq
        refine ⟨rfl, nl, l1, rfl, rfl, hnq, ?_, ?_, ?_, ?_,
          splitFirst_pre_head '?' l1 q1 q2 hq, '?' :: q2, hdec, Or.inr (Or.inl ⟨q2, rfl⟩)⟩
        · intro hm
          apply hnf1
          rw [hdec]
          exact List.mem_append.mpr (Or.inl hm)
        · intro ch hm
          rw [hdec]
          exact List.mem_append.mpr (Or.inl hm)
        · intro hm
          apply hnf1
          rw [hdec]
          exact List.mem_append.mpr (Or.inr (List.mem_cons_of_mem '?' hm))
        · intro ch hm
          rw [hdec]
          exact List.mem_append.mpr (Or.inr (List.mem_cons_of_mem '?' hm))
    · rw [hf] at h
      dsimp only at h
      obtain ⟨hdec1, hnf⟩ := splitFirst_eq_some '#' hf
      rcases hq : splitFirst '?' f1 with _ | ⟨q1, q2⟩
      · rw [hq] at h
        dsimp only at h
        have h2 := Except.ok.inj h
        subst h2
        have hnq1 : '?' ∉ f1 := by
          intro hm
          obtain ⟨x, y, hxy⟩ := splitFirst_isSome '?' hm
          rw [hq] at hxy
          cases hxy
        refine ⟨rfl, nl, l1, rfl, rfl, hnq1, hnf, ?_,
          List.not_mem_nil '#', fun ch hm => absurd hm (List.not_mem_nil ch),
          splitFirst_pre_head '#' l1 f1 f2 hf, '#' :: f2, hdec1,
          Or.inr (Or.inr ⟨f2, rfl⟩)⟩
        intro ch hm
        rw [hdec1]
        exact List.mem_append.mpr (Or.inl hm)
      · rw [hq] at h
        dsimp only at h
        have h2 := Except.ok.inj h
        subst h2
        obtain ⟨hdec2, hnq⟩ := splitFirst_eq_some '?' hq
        have hsub1 : ∀ ch ∈ q1, ch ∈ f1 := by
          intro ch hm
          rw [hdec2]
          exact List.mem_append.mpr (Or.inl hm)
        have hsub2 : ∀ ch ∈ q2, ch ∈ f1 := by
          intro ch hm
          rw [hdec2]
          exact List.mem_append.mpr (Or.inr (List.mem_cons_of_mem '?' hm))
        have hsubL : ∀ ch ∈ f1, ch ∈ l1 := by
          intro ch hm
          rw [hdec1]
          exact List.mem_append.mpr (Or.inl hm)
        refine ⟨rfl, nl, l1, rfl, rfl, hnq, fun hm => hnf (hsub1 '#' hm),
          fun ch hm => hsubL ch (hsub1 ch hm), fun hm => hnf (hsub2 '#' hm),
          fun ch hm => hsubL ch (hsub2 ch hm), ?_, '?' :: (q2 ++ '#' :: f2), ?_,
          Or.inr (Or.inl ⟨q2 ++ '#' :: f2, rfl⟩)⟩
        · rcases splitFirst_pre_head '?' f1 q1 q2 hq with h3 | h3
          · exact Or.inl h3
          · rcases splitFirst_pre_head '#' l1 f1 f2 hf with h4 | h4
            · rw [h4] at hdec2
              simp at hdec2
            · exact Or.inr (h3.trans h4)
        · rw [hdec1, hdec2]
          simp only [List.cons_append, List.append_assoc]

/-- A path that is empty or `/`-headed cannot be mistaken for a scheme. -/
theorem schemeSafePath_of_slash (path : List Char)
    (h : path = [] ∨ listStartsWith path ['/'] = true) : schemeSafePath path := by
  unfold schemeSafePath
  rcases h with rfl | h
  · exact trivial
  · obtain ⟨t, rfl⟩ := (listStartsWith_single path).mp h
    rcases hs : splitFirst ':' ('/' :: t) with _ | ⟨pre, post⟩
    · exact trivial
    · dsimp only
      rcases splitFirst_pre_head ':' _ pre post hs with h1 | h1
      · exact Or.inl h1
      · right; left
        intro ch hch
        rw [h1] at hch
        rw [← Option.some.inj hch]
        decide

/-- A path that is empty or `/`-headed does not start with a C0 byte. -/
theorem headC0_of_slash (path : List Char)
    (h : path = [] ∨ listStartsWith path ['/'] = true) :
    ∀ ch, path.head? = some ch → isC0OrSpace ch = false := by
  intro ch hch
  rcases h with rfl | h
  · exact Option.noConfusion hch
  · obtain ⟨t, rfl⟩ := (listStartsWith_single _).mp h
    rw [← Option.some.inj hch]
    decide

/-- When the netloc remainder is empty or delimiter-headed, the path is
empty or `/`-headed. -/
theorem path_shape_of_delim (path l1 T : List Char)
    (hnq : '?' ∉ path) (hnf : '#' ∉ path)
    (hhead : path = [] ∨ path.head? = l1.head?)
    (hshape : l1 = [] ∨ ∃ c2 cs, l1 = c2 :: cs ∧ (c2 = '/' ∨ c2 = '?' ∨ c2 = '#'))
    (hTdec : l1 = path ++ T) :
    path = [] ∨ listStartsWith path ['/'] = true := by
  rcases path with _ | ⟨p0, pr⟩
  · exact Or.inl rfl
  · right
    rcases hhead with hh | hh
    · exact absurd hh (List.cons_ne_nil p0 pr)
    · rcases hshape with h1 | ⟨c2, cs, hc2, hd⟩
      · rw [h1] at hTdec
        simp at hTdec
      · rw [hc2] at hh
        have hp0 : p0 = c2 := Option.some.inj hh
        rcases hd with hd | hd | hd
        · exact (listStartsWith_single _).mpr ⟨pr, by rw [hp0, hd]⟩
        · exfalso
          apply hnq
          rw [hp0, hd]
          exact List.mem_cons_self _ _
        · exfalso
          apply hnf
          rw [hp0, hd]
          exact List.mem_cons_self _ _

/-- The list -> list-map fixed point of lower-casing. -/
theorem toLower_fixed (l : List Char) :
    (l.map Char.toLower).map Char.toLower = l.map Char.toLower := by
  rw [List.map_map]
  exact List.map_congr_left (fun a _ => char_toLower_idem a)

/-- Inversion of `urlsplit`: every component of a successful parse is
clean, the netloc is bracket-balanced, a nonempty netloc forces an
absolute or empty path, and an empty scheme leaves a scheme-safe path. -/
theorem urlsplitE_inv (u : String) (s : UrlSplit) (h : urlsplitE "" u = Except.ok s) :
    (s.scheme.data = [] ∨ ∃ ch cs, s.scheme.data = ch :: cs ∧ ch.isAlpha = true ∧
      (ch :: cs).all schemeChar = true ∧ (ch :: cs).map Char.toLower = ch :: cs) ∧
    (∀ ch ∈ s.netloc.data, ch ≠ '/' ∧ ch ≠ '?' ∧ ch ≠ '#' ∧ isUnsafeByte ch = false) ∧
    ¬ (('[' ∈ s.netloc.data ∧ ']' ∉ s.netloc.data) ∨
        (']' ∈ s.netloc.data ∧ '[' ∉ s.netloc.data)) ∧
    (∀ ch ∈ s.path.data, ch ≠ '?' ∧ ch ≠ '#' ∧ isUnsafeByte ch = false) ∧
    (∀ ch ∈ s.query.data, ch ≠ '#' ∧ isUnsafeByte ch = false) ∧
    (s.netloc.data ≠ [] → (s.path.data = [] ∨ listStartsWith s.path.data ['/'] = true)) ∧
    (s.scheme.data = [] →
      (schemeSafePath s.path.data ∧
        ∀ ch, s.path.data.head? = some ch → isC0OrSpace ch = false)) := by
  unfold urlsplitE at h
  dsimp only at h
  rcases hdet : detectScheme ((u.data.dropWhile isC0OrSpace).filter
      (fun c => !isUnsafeByte c)) with _ | ⟨sch, rest⟩
  · rw [hdet] at h
    dsimp only at h
    obtain ⟨hsc, nl, l1, hsn, hnl, hnq, hnf, hmemP, hqf, hmemQ, hhead, T, hTdec, hTshape⟩ :=
      urlsplitRest_inv "" _ s h
    obtain ⟨hnlcl, hnlmem, hl1mem, hbr, hcase⟩ := splitNetloc_inv _ nl l1 hsn
    have hnd : s.netloc.data = nl := by rw [hnl]
    have hscd : s.scheme.data = [] := by rw [hsc]
    have hP : s.netloc.data ≠ [] →
        (s.path.data = [] ∨ listStartsWith s.path.data ['/'] = true) := by
      intro hne
      rcases hcase with ⟨h1, _⟩ | hsh
      · rw [hnd] at hne
        exact absurd h1 hne
      · exact path_shape_of_delim s.path.data l1 T hnq hnf hhead hsh hTdec
    refine ⟨Or.inl hscd, ?_, ?_, ?_, ?_, hP, ?_⟩
    · intro ch hm
      rw [hnd] at hm
      obtain ⟨ha, hb2, hc2⟩ := hnlcl ch hm
      exact ⟨ha, hb2, hc2, clean_unsafe u.data ch (hnlmem ch hm)⟩
    · rw [hnd]
      exact hbr
    · intro ch hm
      exact ⟨fun he => hnq (he ▸ hm), fun he => hnf (he ▸ hm),
        clean_unsafe u.data ch (hl1mem ch (hmemP ch hm))⟩
    · intro ch hm
      exact ⟨fun he => hqf (he ▸ hm),
        clean_unsafe u.data ch (hl1mem ch (hmemQ ch hm))⟩
    · intro _
      rcases hcase with ⟨hnl0, hl1L⟩ | hsh
      · constructor
        · unfold schemeSafePath
          rcases hsp : splitFirst ':' s.path.data with _ | ⟨pre, post⟩
          · exact trivial
          · dsimp only
            have h2 := splitFirst_append_first ':' s.path.data T pre post hsp
            rw [← hTdec, hl1L] at h2
            exact detectScheme_none_inv _ hdet pre (post ++ T) h2
        · intro ch hch
          rcases hhead with h1 | h1
          · rw [h1] at hch
            exact Option.noConfusion hch
          · rw [h1, hl1L] at hch
            exact clean_head u.data ch hch
      · have hP2 := path_shape_of_delim s.path.data l1 T hnq hnf hhead hsh hTdec
        exact ⟨schemeSafePath_of_slash _ hP2, headC0_of_slash _ hP2⟩
  · rw [hdet] at h
    dsimp only at h
    obtain ⟨hsc, nl, l1, hsn, hnl, hnq, hnf, hmemP, hqf, hmemQ, hhead, T, hTdec, hTshape⟩ :=
      urlsplitRest_inv (String.mk sch) _ s h
    obtain ⟨hnlcl, hnlmem, hl1mem, hbr, hcase⟩ := splitNetloc_inv _ nl l1 hsn
    obtain ⟨⟨c, cs, hsch, hal, hall⟩, hrestmem⟩ := detectScheme_inv _ sch rest hdet
    have hnd : s.netloc.data = nl := by rw [hnl]
    have hscd : s.scheme.data = (c :: cs).map Char.toLower := by
      rw [hsc, ← hsch]
    have hP : s.netloc.data ≠ [] →
        (s.path.data = [] ∨ listStartsWith s.path.data ['/'] = true) := by
      intro hne
      rcases hcase with ⟨h1, _⟩ | hsh
      · rw [hnd] at hne
        exact absurd h1 hne
      · exact path_shape_of_delim s.path.data l1 T hnq hnf hhead hsh hTdec
    refine ⟨?_, ?_, ?_, ?_, ?_, hP, ?_⟩
    · right
      refine ⟨c.toLower, cs.map Char.toLower, ?_, char_isAlpha_toLower c hal, ?_, ?_⟩
      · rw [hscd]
        rfl
      · apply List.all_eq_true.mpr
        intro x hx
        have hx2 : x ∈ (c :: cs).map Char.toLower := hx
        obtain ⟨y, hy, hxy⟩ := List.mem_map.mp hx2
        rw [← hxy]
        exact schemeChar_toLower y (List.all_eq_true.mp hall y hy)
      · exact toLower_fixed (c :: cs)
    · intro ch hm
      rw [hnd] at hm
      obtain ⟨ha, hb2, hc2⟩ := hnlcl ch hm
      exact ⟨ha, hb2, hc2, clean_unsafe u.data ch (hrestmem ch (hnlmem ch hm))⟩
    · rw [hnd]
      exact hbr
    · intro ch hm
      exact ⟨fun he => hnq (he ▸ hm), fun he => hnf (he ▸ hm),
        clean_unsafe u.data ch (hrestmem ch (hl1mem ch (hmemP ch hm)))⟩
    · intro ch hm
      exact ⟨fun he => hqf (he ▸ hm),
        clean_unsafe u.data ch (hrestmem ch (hl1mem ch (hmemQ ch hm)))⟩
    · intro hs0
      rw [hscd] at hs0
      simp at hs0

/-- `dropLast` preserves the head when nonempty. -/
theorem head_dropLast (l : List Char) :
    l.dropLast = [] ∨ l.dropLast.head? = l.head? := by
  cases l with
  | nil => exact Or.inl rfl
  | cons y ys =>
    cases ys with
    | nil => exact Or.inl rfl
    | cons z zs => exact Or.inr rfl

/-- `dropLast` is a prefix. -/
theorem dropLast_prefix (l : List Char) : ∃ T, l = l.dropLast ++ T := by
  cases l with
  | nil => exact ⟨[], rfl⟩
  | cons y ys =>
    exact ⟨[(y :: ys).getLast (List.cons_ne_nil y ys)],
      (List.dropLast_append_getLast (List.cons_ne_nil y ys)).symm⟩

/-- Inversion of `_splitparams`: both parts draw their characters from the
input (plus the re-attached `/`), the parameters contain no slash, and the
path part is a head-preserving prefix. -/
theorem splitParams_facts (l : List Char) :
    (∀ ch ∈ (splitParams l).1, ch = '/' ∨ ch ∈ l) ∧
    (∀ ch ∈ (splitParams l).2, ch ∈ l ∧ ch ≠ '/') ∧
    ((splitParams l).1 = [] ∨ (splitParams l).1.head? = l.head?) ∧
    (∃ T, l = (splitParams l).1 ++ T) := by
  rcases hsl : splitLast '/' l with _ | ⟨a, b⟩
  · have hnl : '/' ∉ l := splitLast_eq_none '/' l hsl
    rcases hsf : splitFirst ';' l with _ | ⟨pp, qq⟩
    · have hspl : splitParams l = (l.dropLast, l) := by
        unfold splitParams
        rw [hsl, hsf]
      rw [hspl]
      exact ⟨fun ch hm => Or.inr (List.dropLast_subset l hm),
        fun ch hm => ⟨hm, fun he => hnl (he ▸ hm)⟩, head_dropLast l, dropLast_prefix l⟩
    · have hspl : splitParams l = (pp, qq) := by
        unfold splitParams
        rw [hsl, hsf]
      rw [hspl]
      obtain ⟨hdec, hnpp⟩ := splitFirst_eq_some ';' hsf
      refine ⟨?_, ?_, splitFirst_pre_head ';' l pp qq hsf, ';' :: qq, hdec⟩
      · intro ch hm
        right
        rw [hdec]
        exact List.mem_append.mpr (Or.inl hm)
      · intro ch hm
        have hmem : ch ∈ l := by
          rw [hdec]
          exact List.mem_append.mpr (Or.inr (List.mem_cons_of_mem ';' hm))
        exact ⟨hmem, fun he => hnl (he ▸ hmem)⟩
  · obtain ⟨hldec, hlnb⟩ := splitLast_eq_some '/' l a b hsl
    rcases hsf : splitFirst ';' b with _ | ⟨pp, qq⟩
    · have hspl : splitParams l = (l, []) := by
        unfold splitParams
        rw [hsl]
        dsimp only
        rw [hsf]
      rw [hspl]
      exact ⟨fun ch hm => Or.inr hm,
        fun ch hm => absurd hm (List.not_mem_nil ch),
        Or.inr rfl, [], (List.append_nil l).symm⟩
    · have hspl : splitParams l = (a ++ '/' :: pp, qq) := by
        unfold splitParams
        rw [hsl]
        dsimp only
        rw [hsf]
      rw [hspl]
      obtain ⟨hbdec, hnpp⟩ := splitFirst_eq_some ';' hsf
      refine ⟨?_, ?_, ?_, ';' :: qq, ?_⟩
      · intro ch hm
        rcases List.mem_append.mp hm with hm | hm
        · right
          rw [hldec]
          exact List.mem_append.mpr (Or.inl hm)
        · rcases List.mem_cons.mp hm with hm | hm
          · exact Or.inl hm
          · right
            rw [hldec, hbdec]
            exact List.mem_append.mpr (Or.inr (List.mem_cons_of_mem '/'
              (List.mem_append.mpr (Or.inl hm))))
      · intro ch hm
        have hmb : ch ∈ b := by
          rw [hbdec]
          exact List.mem_append.mpr (Or.inr (List.mem_cons_of_mem ';' hm))
        refine ⟨?_, fun he => hlnb (he ▸ hmb)⟩
        rw [hldec]
        exact List.mem_append.mpr (Or.inr (List.mem_cons_of_mem '/' hmb))
      · rcases a with _ | ⟨a0, ar⟩
        · right
          rw [hldec]
          rfl
        · right
          rw [hldec]
          rfl
      · rw [hldec, hbdec]
        simp only [List.cons_append, List.append_assoc]

/-- A head-preserving prefix of an empty-or-`/`-headed list is itself
empty or `/`-headed. -/
theorem transfer_slash (X l T : List Char)
    (hh : X = [] ∨ X.head? = l.head?) (hT : l = X ++ T)
    (hsl : l = [] ∨ listStartsWith l ['/'] = true) :
    X = [] ∨ listStartsWith X ['/'] = true := by
  rcases X with _ | ⟨x0, xr⟩
  · exact Or.inl rfl
  · right
    rcases hh with hh | hh
    · exact absurd hh (List.cons_ne_nil x0 xr)
    · rcases hsl with rfl | hsl
      · simp at hT
      · obtain ⟨t, ht⟩ := (listStartsWith_single l).mp hsl
        rw [ht] at hh
        have hx0 : x0 = '/' := Option.some.inj hh
        exact (listStartsWith_single _).mpr ⟨xr, by rw [hx0]⟩

/-- Inversion of `urlparse`: the `urlsplit` facts transfer to the
path/params pair, and a nonempty parameter component certifies that the
scheme uses parameters. -/
theorem urlparseE_inv (u : String) (p0 : UrlParse)
    (h : urlparseE "" u = Except.ok p0) :
    (p0.scheme.data = [] ∨ ∃ ch cs, p0.scheme.data = ch :: cs ∧ ch.isAlpha = true ∧
      (ch :: cs).all schemeChar = true ∧ (ch :: cs).map Char.toLower = ch :: cs) ∧
    (∀ ch ∈ p0.netloc.data, ch ≠ '/' ∧ ch ≠ '?' ∧ ch ≠ '#' ∧ isUnsafeByte ch = false) ∧
    ¬ (('[' ∈ p0.netloc.data ∧ ']' ∉ p0.netloc.data) ∨
        (']' ∈ p0.netloc.data ∧ '[' ∉ p0.netloc.data)) ∧
    (∀ ch ∈ p0.path.data, ch ≠ '?' ∧ ch ≠ '#' ∧ isUnsafeByte ch = false) ∧
    (∀ ch ∈ p0.params.data, ch ≠ '/' ∧ ch ≠ '?' ∧ ch ≠ '#' ∧ isUnsafeByte ch = false) ∧
    (∀ ch ∈ p0.query.data, ch ≠ '#' ∧ isUnsafeByte ch = false) ∧
    (p0.params.data ≠ [] → usesParams.contains p0.scheme = true) ∧
    (p0.netloc.data ≠ [] → (p0.path.data = [] ∨ listStartsWith p0.path.data ['/'] = true)) ∧
    (p0.scheme.data = [] →
      (schemeSafePath p0.path.data ∧
        ∀ ch, p0.path.data.head? = some ch → isC0OrSpace ch = false)) := by
  unfold urlparseE at h
  rcases hsp : urlsplitE "" u with e | s
  · rw [hsp] at h
    cases h
  · rw [hsp] at h
    dsimp only at h
    obtain ⟨hS, hN, hB, hPc, hQc, hNP, hSS⟩ := urlsplitE_inv u s hsp
    split at h
    · next hcond =>
      have h2 := Except.ok.inj h
      subst h2
      dsimp only
      obtain ⟨hmem1, hmem2, hhead2, T2, hTdec2⟩ := splitParams_facts s.path.data
      rcases band_elim hcond with ⟨hcont, _⟩
      refine ⟨hS, hN, hB, ?_, ?_, hQc, fun _ => hcont, ?_, ?_⟩
      · intro ch hm
        rcases hmem1 ch hm with hm | hm
        · exact ⟨by rw [hm]; decide, by rw [hm]; decide, by rw [hm]; decide⟩
        · exact hPc ch hm
      · intro ch hm
        obtain ⟨hm2, hne⟩ := hmem2 ch hm
        obtain ⟨ha, hb2, hc2⟩ := hPc ch hm2
        exact ⟨hne, ha, hb2, hc2⟩
      · intro hne
        exact transfer_slash _ s.path.data T2 hhead2 hTdec2
          (by
            rcases hNP hne with h3 | h3
            · exact Or.inl h3
            · exact Or.inr h3)
      · intro hs0
        obtain ⟨hsafe, hhc⟩ := hSS hs0
        constructor
        · rw [hTdec2] at hsafe
          exact schemeSafePath_prefix _ T2 hsafe
        · intro ch hch
          rcases hhead2 with h3 | h3
          · rw [h3] at hch
            exact Option.noConfusion hch
          · rw [h3] at hch
            exact hhc ch hch
    · have h2 := Except.ok.inj h
      subst h2
      dsimp only
      refine ⟨hS, hN, hB, hPc, ?_, hQc, ?_, hNP, hSS⟩
      · intro ch hm
        exact absurd hm (List.not_mem_nil ch)
      · intro hne
        exact absurd rfl hne

/-- Stripping trailing slashes preserves the head when nonempty. -/
theorem head_dropTrailingSlashes (l : List Char) :
    dropTrailingSlashes l = [] ∨ (dropTrailingSlashes l).head? = l.head? := by
  obtain ⟨k, hdec, _⟩ := dropTrailingSlashes_decomp l
  rcases hdt : dropTrailingSlashes l with _ | ⟨x, xs⟩
  · exact Or.inl rfl
  · right
    rw [hdt] at hdec
    rw [hdec]
    exact (head_of_append _ _ (List.cons_ne_nil x xs)).symm

/-- The tuple produced by parsing and normalizing satisfies the
normalization invariant, given the two side conditions of the amended
idempotence claim: the parsed path holds no `;` and, when the authority is
empty, does not begin with `//`. -/
theorem normParts_establishes (u : String) (p0 : UrlParse)
    (hE : urlparseE "" u = Except.ok p0)
    (hsemi : ';' ∉ p0.path.data)
    (hss : p0.netloc.data = [] → listStartsWith p0.path.data ['/', '/'] = false) :
    NormInv (normParts p0) := by
  obtain ⟨hS, hN, hB, hPc, hParc, hQc, hPs, hNP, hSS⟩ := urlparseE_inv u p0 hE
  obtain ⟨PD, hPD, hTp, hhp, hnostrip⟩ :
      ∃ PD, normParts p0 =
          ⟨p0.scheme, p0.netloc, String.mk PD, p0.params, p0.query, ""⟩ ∧
        (∃ T, p0.path.data = PD ++ T) ∧
        (PD = [] ∨ PD.head? = p0.path.data.head?) ∧
        ¬(PD.getLast? = some '/' ∧ 1 < PD.length) := by
    obtain ⟨k, hdec, hlast⟩ := dropTrailingSlashes_decomp p0.path.data
    unfold normParts
    dsimp only
    by_cases hc : (endsWithSlash p0.path && decide (1 < p0.path.length)) = true
    · rw [if_pos hc]
      exact ⟨dropTrailingSlashes p0.path.data, rfl, ⟨List.replicate k '/', hdec⟩,
        head_dropTrailingSlashes p0.path.data, fun hcon => hlast hcon.1⟩
    · rw [if_neg hc]
      have hcf : (endsWithSlash p0.path && decide (1 < p0.path.length)) = false := by
        cases hb2 : (endsWithSlash p0.path && decide (1 < p0.path.length))
        · rfl
        · exact absurd hb2 hc
      refine ⟨p0.path.data, rfl, ⟨[], (List.append_nil _).symm⟩, Or.inr rfl, ?_⟩
      intro hcon
      rcases band_false_elim hcf with h1 | h1
      · unfold endsWithSlash at h1
        exact of_decide_eq_false h1 hcon.1
      · exact of_decide_eq_false h1 hcon.2
  obtain ⟨T, hT⟩ := hTp
  have hPDsub : ∀ ch ∈ PD, ch ∈ p0.path.data := by
    intro ch hm
    rw [hT]
    exact List.mem_append.mpr (Or.inl hm)
  rw [hPD]
  refine ⟨hS, hN, hB, fun ch hm => hPc ch (hPDsub ch hm), hParc, hQc, rfl, hPs,
    ?_, ?_, hnostrip, fun hm => hsemi (hPDsub ';' hm), ?_⟩
  · intro hne
    exact transfer_slash PD p0.path.data T hhp hT (hNP hne)
  · intro hs0 hn0
    obtain ⟨hsafe, hhc⟩ := hSS hs0
    constructor
    · rw [hT] at hsafe
      exact schemeSafePath_prefix PD T hsafe
    · intro ch hch
      rcases hhp with h3 | h3
      · rw [h3] at hch
        exact Option.noConfusion hch
      · exact hhc ch (by rw [← h3]; exact hch)
  · intro hn0
    cases hl : listStartsWith PD ['/', '/']
    · rfl
    · exfalso
      have h2 := lsw_pair_append PD T hl
      rw [← hT] at h2
      rw [hss hn0] at h2
      cases h2

/-- C9 counterexample: `normalize_url` is not idempotent on every URL it
accepts.  Stripping the trailing slashes of `http://a.com/x/;y//` leaves
`http://a.com/x/;y`, and a second normalization moves `;y` into the path
parameters and strips the newly exposed trailing slash, giving
`http://a.com/x;y` — a third, different string. -/
theorem C9_counterexample :
    normalize_url "http://a.com/x/;y//" = Except.ok "http://a.com/x/;y" ∧
    normalize_url "http://a.com/x/;y" = Except.ok "http://a.com/x;y" ∧
    ("http://a.com/x;y" : String) ≠ "http://a.com/x/;y" :=
  ⟨rfl, rfl, by decide⟩

/-- C9 (amended): for every URL string `u` that `urlparse` accepts and
whose parsed path contains no `;` and, in case the parsed netloc is empty,
does not begin with `//`, `normalize_url` succeeds and its result is a
fixed point: normalizing the result returns it unchanged. -/
theorem C9_normalize_idempotent (u : String) (p0 : UrlParse)
    (hE : urlparseE "" u = Except.ok p0)
    (hsemi : ';' ∉ p0.path.data)
    (hss : p0.netloc.data = [] → listStartsWith p0.path.data ['/', '/'] = false) :
    ∃ v, normalize_url u = Except.ok v ∧ normalize_url v = Except.ok v := by
  refine ⟨urlunparse (normParts p0), ?_, ?_⟩
  · unfold normalize_url
    rw [hE]
  · exact normalize_fixed (normParts p0) (normParts_establishes u p0 hE hsemi hss)

/-- C9 witness: the amended idempotence theorem applied to the concrete
URL `http://a.com/x/`, whose parse satisfies both side conditions. -/
theorem C9_witness :
    urlparseE "" "http://a.com/x/" =
      Except.ok ⟨"http", "a.com", "/x/", "", "", ""⟩ ∧
    ∃ v, normalize_url "http://a.com/x/" = Except.ok v ∧
      normalize_url v = Except.ok v :=
  ⟨rfl, C9_normalize_idempotent "http://a.com/x/"
    ⟨"http", "a.com", "/x/", "", "", ""⟩ rfl (by decide) (by decide)⟩

end WQA
